import Mathlib

set_option linter.unreachableTactic false
set_option linter.unusedTactic false
set_option linter.unnecessarySeqFocus false

/-!
Verification of the Game-of-Life garden-of-eden benchmark
(`src/game-of-life.cpp`) against its natural-language specification.

The decision-diagram engine is external to the program under verification;
following its capability interface (`common/adapter.h`), a diagram handle is
modelled extensionally as the Boolean function it computes, a construction
node `build_node(x, low, high)` as the function `if A x then high else low`,
and `build()` as returning the node constructed last.

Machine integers (`int`, `char`) are modelled as `Int`/`Nat`; all quantities
involved stay far below any overflow boundary for the grids the claims range
over, and the source guards the relevant subtractions, so the embedding
tracks the mathematical values.
-/

namespace GameOfLife

/-- `enum symmetry` from the source: `none` or vertical `mirror`. -/
inductive symmetry where
  | none : symmetry
  | mirror : symmetry
deriving DecidableEq, Repr

/-- `rows(p)`: number of rows; the pre-phase grid has a one-cell border,
so `input_sizes.at(0) + 2*(!p)`.  `R` stands for `input_sizes.at(0)`. -/
def rows (R : Nat) (p : Bool) : Int :=
  (R : Int) + 2 * (if p then 0 else 1)

/-- `MIN_ROW(p)`: `p` (0 for pre, 1 for post). -/
def MIN_ROW (p : Bool) : Int :=
  if p then 1 else 0

/-- `MAX_ROW(p)`: `rows(p) - (!p)`. -/
def MAX_ROW (R : Nat) (p : Bool) : Int :=
  rows R p - (if p then 0 else 1)

/-- `cols(p)`: `input_sizes.at(1) + 2*(!p)`.  `C` stands for `input_sizes.at(1)`. -/
def cols (C : Nat) (p : Bool) : Int :=
  (C : Int) + 2 * (if p then 0 else 1)

/-- `MIN_COL(p)`. -/
def MIN_COL (p : Bool) : Int :=
  if p then 1 else 0

/-- `MAX_COL(p)`: `cols(p) - (!p)`. -/
def MAX_COL (C : Nat) (p : Bool) : Int :=
  cols C p - (if p then 0 else 1)

/-- `class cell`: a coordinate together with its phase
 (`prime = false` is `prime::pre`, `prime = true` is `prime::post`). -/
structure cell where
  row : Int
  col : Int
  prime : Bool
deriving DecidableEq, Repr

/-- `cell::out_of_range`: whether the cell violates the bounds of its own phase. -/
def out_of_range (R C : Nat) (c : cell) : Bool :=
  decide (c.row < MIN_ROW c.prime) || decide (MAX_ROW R c.prime < c.row)
    || decide (c.col < MIN_COL c.prime) || decide (MAX_COL C c.prime < c.col)

/-- `cell::vertical_dist_to`. -/
def vertical_dist_to (c o : cell) : Nat :=
  (c.row - o.row).natAbs

/-- `cell::horizontal_dist_to`. -/
def horizontal_dist_to (c o : cell) : Nat :=
  (c.col - o.col).natAbs

/-- `cell::in_neighbourhood`: both distances at most one. -/
def in_neighbourhood (c o : cell) : Bool :=
  decide (vertical_dist_to c o ≤ 1) && decide (horizontal_dist_to c o ≤ 1)

/-- `cell::neighbourhood`: the nine pre-phase cells around a post-phase cell,
in ascending row-major order (the middle entry is `*this`, which the source
pushes with its own — post — phase). -/
def neighbourhood (c : cell) : List cell :=
  [ ⟨c.row - 1, c.col - 1, false⟩
  , ⟨c.row - 1, c.col,     false⟩
  , ⟨c.row - 1, c.col + 1, false⟩
  , ⟨c.row,     c.col - 1, false⟩
  , c
  , ⟨c.row,     c.col + 1, false⟩
  , ⟨c.row + 1, c.col - 1, false⟩
  , ⟨c.row + 1, c.col,     false⟩
  , ⟨c.row + 1, c.col + 1, false⟩ ]

/-- `cell::operator==`: comparison of the two coordinates only;
the phase is not inspected. -/
def cell_eq (a b : cell) : Bool :=
  decide (a.row = b.row) && decide (a.col = b.col)

/-- `std::hash<cell>`: `hash(row) ^ hash(col) ^ prime`, parametric in the
(implementation-defined) `std::hash<char>`, modelled as an arbitrary
function `h : Int → Nat`. -/
def cell_hash (h : Int → Nat) (c : cell) : Nat :=
  (h c.row) ^^^ (h c.col) ^^^ (if c.prime then 1 else 0)



end GameOfLife

namespace GameOfLife

/-- C10: `cell::operator==` ignores the phase — two cells compare equal
exactly when row and column agree, so a pre-phase cell and the post-phase
cell at the same coordinate compare equal — while the hash function always
distinguishes the two phases of one coordinate. -/
theorem cell_eq_ignores_prime :
    (∀ a b : cell, cell_eq a b = true ↔ (a.row = b.row ∧ a.col = b.col)) ∧
    (∀ (h : Int → Nat) (r c : Int),
      cell_hash h ⟨r, c, false⟩ ≠ cell_hash h ⟨r, c, true⟩) := by
  constructor
  · intro a b
    simp [cell_eq]
  · intro h r c hEq
    simp only [cell_hash] at hEq
    norm_num at hEq
    have h2 := congrArg (fun n => (h r ^^^ h c) ^^^ n) hEq
    simp only [Nat.xor_cancel_left, Nat.xor_self] at h2
    exact absurd h2 (by decide)

/-- Closed instance of `cell_eq_ignores_prime`: the pre- and post-phase cells
at coordinate (1,1) compare equal yet hash differently (for the identity-like
char hash). -/
theorem cell_eq_ignores_prime_witness :
    (cell_eq ⟨1, 1, false⟩ ⟨1, 1, true⟩ = true) ∧
    cell_hash Int.natAbs ⟨1, 1, false⟩ ≠ cell_hash Int.natAbs ⟨1, 1, true⟩ :=
  ⟨by decide, cell_eq_ignores_prime.2 Int.natAbs 1 1⟩

/-!
## The cell-to-variable map (`class var_map`)

`var_map` holds a `std::unordered_map<cell, int>` keyed with the hash above
and compared with `cell::operator==`.  Although `operator==` ignores the
phase, the hashes of the two phases of one coordinate differ in bit 0, so
the two keys always land in distinct buckets (bucket counts exceed 1 from
the first insertion on) and `operator==` is only consulted within a bucket,
where it distinguishes every remaining pair by coordinates.  The container
therefore behaves as a finite map keyed by (row, col, phase); the model
below uses that key equality (`cell_beq`) directly.  `insert` never
overwrites, so the map is modelled as the list of insertions performed by
the constructor, looked up by first match.
-/

/-- Effective key equality of the `std::unordered_map<cell, int>`:
`cell::operator==` within a bucket, the phase separated by the hash. -/
def cell_beq (a b : cell) : Bool :=
  cell_eq a b && (a.prime == b.prime)

/-- The mutable state of `var_map`'s constructor: the running variable index
`x`, the insertions into `_map` so far, and the two `_varcount` fields. -/
structure vm_state where
  x : Nat
  map : List (cell × Nat)
  pre_cnt : Nat
  post_cnt : Nat
deriving Repr

/-- One iteration of the inner loop of the `symmetry::none` branch of
`var_map::var_map`: insert the pre-phase cell at the fresh index, then —
when in range — the post-phase cell at the next index. -/
def none_body (R C : Nat) (row : Int) (s : vm_state) (col : Nat) : vm_state :=
  let cell_pre : cell := ⟨row, (col : Int), false⟩
  let s1 : vm_state := ⟨s.x + 1, s.map ++ [(cell_pre, s.x)], s.pre_cnt + 1, s.post_cnt⟩
  let cell_post : cell := ⟨row, (col : Int), true⟩
  if ! out_of_range R C cell_post then
    ⟨s1.x + 1, s1.map ++ [(cell_post, s1.x)], s1.pre_cnt, s1.post_cnt + 1⟩
  else s1

/-- `max_col` of the `symmetry::mirror` branch:
`MIN_COL(pre) + cols(pre)/2 - !odd_cols`. -/
def mirror_max_col (C : Nat) : Nat :=
  (C + 2) / 2 - (if (C + 2) % 2 = 1 then 0 else 1)

/-- One iteration of the inner loop of the `symmetry::mirror` branch of
`var_map::var_map`: insert the left pre cell, its mirror when distinct, and
— when in range — a post index shared between the left post cell and its
mirror. -/
def mirror_body (R C : Nat) (row : Int) (s : vm_state) (left_col : Nat) : vm_state :=
  let right_col : Int := MAX_COL C false - (left_col : Int)
  let add_mirror : Bool := decide ((mirror_max_col C : Int) < right_col)
  let pre_left : cell := ⟨row, (left_col : Int), false⟩
  let s1 : vm_state := ⟨s.x + 1, s.map ++ [(pre_left, s.x)], s.pre_cnt + 1, s.post_cnt⟩
  let s2 : vm_state :=
    if add_mirror then
      ⟨s1.x + 1, s1.map ++ [(⟨row, right_col, false⟩, s1.x)], s1.pre_cnt + 1, s1.post_cnt⟩
    else s1
  let post_left : cell := ⟨row, (left_col : Int), true⟩
  if ! out_of_range R C post_left then
    let post_var := s2.x
    let s3 : vm_state := ⟨s2.x + 1, s2.map ++ [(post_left, post_var)], s2.pre_cnt, s2.post_cnt + 1⟩
    if add_mirror then
      ⟨s3.x, s3.map ++ [(⟨row, right_col, true⟩, post_var)], s3.pre_cnt, s3.post_cnt⟩
    else s3
  else s2

/-- The state produced by `var_map::var_map(s)`: the row-major double loop
of the chosen symmetry branch. -/
def mk_map_state (R C : Nat) : symmetry → vm_state
  | symmetry.none =>
    (List.range (R + 2)).foldl
      (fun s (row : Nat) => (List.range (C + 2)).foldl (none_body R C (row : Int)) s)
      ⟨0, [], 0, 0⟩
  | symmetry.mirror =>
    (List.range (R + 2)).foldl
      (fun s (row : Nat) =>
        (List.range (mirror_max_col C + 1)).foldl (mirror_body R C (row : Int)) s)
      ⟨0, [], 0, 0⟩

/-- `class var_map`, remembering the grid dimensions it was built for. -/
structure var_map where
  R : Nat
  C : Nat
  st : vm_state

/-- `var_map::var_map(symmetry)`. -/
def mk_var_map (R C : Nat) (s : symmetry) : var_map :=
  ⟨R, C, mk_map_state R C s⟩

/-- `var_map::varcount(p)` (the `_varcount` fields). -/
def var_map.varcount_p (vm : var_map) (p : Bool) : Nat :=
  if p then vm.st.post_cnt else vm.st.pre_cnt

/-- `var_map::varcount()`: `varcount(false) + varcount(true)`. -/
def var_map.varcount (vm : var_map) : Nat :=
  vm.st.pre_cnt + vm.st.post_cnt

/-- `_map.find(c)`, with the effective key equality. -/
def map_find? (m : List (cell × Nat)) (c : cell) : Option Nat :=
  (m.find? (fun e => cell_beq e.1 c)).map (fun e => e.2)

/-- `var_map::var_from_cell`: `throw std::out_of_range` — modelled as
`Except.error ()` — when the cell violates its phase's bounds or is absent
from the map; otherwise the mapped index. -/
def var_map.var_from_cell (vm : var_map) (c : cell) : Except Unit Nat :=
  if out_of_range vm.R vm.C c then Except.error ()
  else
    match map_find? vm.st.map c with
    | Option.none => Except.error ()
    | Option.some i => Except.ok i

/-- `var_map::cell_from_var`: `_inv.at(x)`.  `_inv` is filled by iterating
the hash map and storing each entry's cell at its index, so an index shared
by two cells ends up with whichever the iteration visits last; the model
resolves that unspecified order to insertion order.  Slots never written
keep the default cell `(-1, -1, pre)`. -/
def var_map.cell_from_var (vm : var_map) (x : Nat) : cell :=
  match (vm.st.map.filter (fun e => e.2 == x)).getLast? with
  | Option.some e => e.1
  | Option.none => ⟨-1, -1, false⟩

/-!
## Invariants of the constructed map
-/

/-- `cell_beq` is equality on cells. -/
theorem cell_beq_iff (a b : cell) : cell_beq a b = true ↔ a = b := by
  cases a with
  | mk ar ac ap =>
    cases b with
    | mk br bc bp =>
      simp [cell_beq, cell_eq, cell.mk.injEq, and_assoc]

/-- Bounds of an in-range pre-phase cell. -/
theorem oob_pre_iff (R C : Nat) (r c : Int) :
    out_of_range R C ⟨r, c, false⟩ = false ↔
      (0 ≤ r ∧ r ≤ (R : Int) + 1 ∧ 0 ≤ c ∧ c ≤ (C : Int) + 1) := by
  simp [out_of_range, MIN_ROW, MAX_ROW, MIN_COL, MAX_COL, rows, cols]
  omega

/-- Bounds of an in-range post-phase cell. -/
theorem oob_post_iff (R C : Nat) (r c : Int) :
    out_of_range R C ⟨r, c, true⟩ = false ↔
      (1 ≤ r ∧ r ≤ (R : Int) ∧ 1 ≤ c ∧ c ≤ (C : Int)) := by
  simp [out_of_range, MIN_ROW, MAX_ROW, MIN_COL, MAX_COL, rows, cols]
  omega

/-- The structural invariant of `var_map`'s constructor state: indices are
below the running counter `x`, which counts one slot per assigned index;
every index below `x` occurs; the entry list is a function from cells to
indices; distinct pre-phase cells never share an index; and every inserted
cell respects its phase's bounds. -/
structure vm_inv (R C : Nat) (s : vm_state) : Prop where
  idx_lt : ∀ e ∈ s.map, e.2 < s.x
  x_eq : s.x = s.pre_cnt + s.post_cnt
  surj : ∀ i, i < s.x → ∃ e ∈ s.map, e.2 = i
  funct : ∀ e ∈ s.map, ∀ f ∈ s.map, e.1 = f.1 → e.2 = f.2
  pre_inj : ∀ e ∈ s.map, ∀ f ∈ s.map, e.2 = f.2 →
    e.1.prime = false → f.1.prime = false → e.1 = f.1
  in_rng : ∀ e ∈ s.map, out_of_range R C e.1 = false

/-- The empty starting state satisfies the invariant. -/
theorem vm_inv_init (R C : Nat) : vm_inv R C ⟨0, [], 0, 0⟩ := by
  refine ⟨?_, rfl, ?_, ?_, ?_, ?_⟩ <;> simp

/-- Inserting a fresh in-range cell at the running index preserves the
invariant (`pc`, `qc` are the updated counters, one of them bumped). -/
theorem vm_inv_push (R C : Nat) (s : vm_state) (c : cell) (pc qc : Nat)
    (inv : vm_inv R C s) (hc : out_of_range R C c = false)
    (fresh : ∀ e ∈ s.map, e.1 ≠ c) (hcnt : s.x + 1 = pc + qc) :
    vm_inv R C ⟨s.x + 1, s.map ++ [(c, s.x)], pc, qc⟩ := by
  constructor
  · intro e he
    rcases List.mem_append.1 he with h | h
    · exact Nat.lt_succ_of_lt (inv.idx_lt e h)
    · rw [List.mem_singleton.1 h]
      exact Nat.lt_succ_self _
  · exact hcnt
  · intro i hi
    rcases Nat.lt_succ_iff_lt_or_eq.1 hi with h | h
    · obtain ⟨e, he, hei⟩ := inv.surj i h
      exact ⟨e, List.mem_append.2 (Or.inl he), hei⟩
    · exact ⟨(c, s.x), List.mem_append.2 (Or.inr (List.mem_singleton.2 rfl)), h.symm⟩
  · intro e he f hf hef
    rcases List.mem_append.1 he with h1 | h1 <;> rcases List.mem_append.1 hf with h2 | h2
    · exact inv.funct e h1 f h2 hef
    · rw [List.mem_singleton.1 h2] at hef
      exact absurd hef (fresh e h1)
    · rw [List.mem_singleton.1 h1] at hef
      exact absurd hef.symm (fresh f h2)
    · rw [List.mem_singleton.1 h1, List.mem_singleton.1 h2]
  · intro e he f hf hef _ _
    rcases List.mem_append.1 he with h1 | h1 <;> rcases List.mem_append.1 hf with h2 | h2
    · exact inv.pre_inj e h1 f h2 hef (by assumption) (by assumption)
    · have := inv.idx_lt e h1
      rw [List.mem_singleton.1 h2] at hef
      omega
    · have := inv.idx_lt f h2
      rw [List.mem_singleton.1 h1] at hef
      omega
    · rw [List.mem_singleton.1 h1, List.mem_singleton.1 h2]
  · intro e he
    rcases List.mem_append.1 he with h | h
    · exact inv.in_rng e h
    · rw [List.mem_singleton.1 h]
      exact hc

/-- Inserting a fresh in-range post-phase cell at an already-used index
whose other cells are all post-phase (the mirrored partner of a post cell)
preserves the invariant; counters and `x` are unchanged. -/
theorem vm_inv_push_shared (R C : Nat) (s : vm_state) (c : cell) (i : Nat)
    (inv : vm_inv R C s) (hc : out_of_range R C c = false)
    (fresh : ∀ e ∈ s.map, e.1 ≠ c) (hi : i < s.x) (hphase : c.prime = true) :
    vm_inv R C ⟨s.x, s.map ++ [(c, i)], s.pre_cnt, s.post_cnt⟩ := by
  constructor
  · intro e he
    rcases List.mem_append.1 he with h | h
    · exact inv.idx_lt e h
    · rw [List.mem_singleton.1 h]
      exact hi
  · exact inv.x_eq
  · intro j hj
    obtain ⟨e, he, hei⟩ := inv.surj j hj
    exact ⟨e, List.mem_append.2 (Or.inl he), hei⟩
  · intro e he f hf hef
    rcases List.mem_append.1 he with h1 | h1 <;> rcases List.mem_append.1 hf with h2 | h2
    · exact inv.funct e h1 f h2 hef
    · rw [List.mem_singleton.1 h2] at hef
      exact absurd hef (fresh e h1)
    · rw [List.mem_singleton.1 h1] at hef
      exact absurd hef.symm (fresh f h2)
    · rw [List.mem_singleton.1 h1, List.mem_singleton.1 h2]
  · intro e he f hf hef hep hfp
    rcases List.mem_append.1 he with h1 | h1 <;> rcases List.mem_append.1 hf with h2 | h2
    · exact inv.pre_inj e h1 f h2 hef hep hfp
    · rw [List.mem_singleton.1 h2] at hfp
      rw [hphase] at hfp
      exact absurd hfp (by simp)
    · rw [List.mem_singleton.1 h1] at hep
      rw [hphase] at hep
      exact absurd hep (by simp)
    · rw [List.mem_singleton.1 h1, List.mem_singleton.1 h2]
  · intro e he
    rcases List.mem_append.1 he with h | h
    · exact inv.in_rng e h
    · rw [List.mem_singleton.1 h]
      exact hc

/-- Effect of one `symmetry::none` iteration: the invariant is preserved,
the new entries sit at the processed coordinate, `pre_cnt` gains one and
`post_cnt` gains one exactly when the post cell is in range. -/
theorem none_body_inv (R C : Nat) (row : Int) (col : Nat) (s : vm_state)
    (inv : vm_inv R C s) (hr0 : 0 ≤ row) (hr1 : row ≤ (R : Int) + 1)
    (hcol : (col : Int) ≤ (C : Int) + 1)
    (fresh : ∀ e ∈ s.map, e.1.row ≠ row ∨ e.1.col ≠ (col : Int)) :
    vm_inv R C (none_body R C row s col)
    ∧ (∀ e ∈ (none_body R C row s col).map,
        e ∈ s.map ∨ (e.1.row = row ∧ e.1.col = (col : Int)))
    ∧ (none_body R C row s col).pre_cnt = s.pre_cnt + 1
    ∧ (none_body R C row s col).post_cnt
        = s.post_cnt + (if out_of_range R C ⟨row, (col : Int), true⟩ = false then 1 else 0) := by
  have hpre : out_of_range R C ⟨row, (col : Int), false⟩ = false := by
    rw [oob_pre_iff]
    exact ⟨hr0, hr1, by positivity, hcol⟩
  have fresh1 : ∀ e ∈ s.map, e.1 ≠ (⟨row, (col : Int), false⟩ : cell) := by
    intro e he heq
    rcases fresh e he with h | h <;> rw [heq] at h <;> exact h rfl
  have inv1 : vm_inv R C ⟨s.x + 1, s.map ++ [(⟨row, (col : Int), false⟩, s.x)],
      s.pre_cnt + 1, s.post_cnt⟩ := by
    refine vm_inv_push R C s _ _ _ inv hpre fresh1 ?_
    have hx := inv.x_eq
    omega
  unfold none_body
  by_cases hoob : out_of_range R C ⟨row, (col : Int), true⟩ = false
  · rw [if_pos (show (! out_of_range R C ⟨row, (col : Int), true⟩) = true by
      rw [hoob]; rfl)]
    have hite : (if out_of_range R C (⟨row, (col : Int), true⟩ : cell) = false
        then 1 else 0) = 1 := by
      rw [hoob]
      rfl
    rw [hite]
    have fresh2 : ∀ e ∈ s.map ++ [((⟨row, (col : Int), false⟩ : cell), s.x)],
        e.1 ≠ (⟨row, (col : Int), true⟩ : cell) := by
      intro e he heq
      rcases List.mem_append.1 he with h | h
      · rcases fresh e h with h' | h' <;> rw [heq] at h' <;> exact h' rfl
      · rw [List.mem_singleton.1 h] at heq
        simp at heq
    have inv2 := vm_inv_push R C _ (⟨row, (col : Int), true⟩ : cell)
      (s.pre_cnt + 1) (s.post_cnt + 1) inv1 hoob fresh2
      (show (s.x + 1) + 1 = (s.pre_cnt + 1) + (s.post_cnt + 1) by
        have hx := inv.x_eq
        omega)
    refine ⟨inv2, ?_, rfl, rfl⟩
    intro e he
    simp only [List.append_assoc, List.mem_append, List.mem_singleton] at he
    rcases he with h | h | h
    · exact Or.inl h
    · rw [h]
      exact Or.inr ⟨rfl, rfl⟩
    · rw [h]
      exact Or.inr ⟨rfl, rfl⟩
  · rw [if_neg (show ¬ (! out_of_range R C ⟨row, (col : Int), true⟩) = true by
      rw [Bool.not_eq_false] at hoob
      rw [hoob]
      simp)]
    have hite : (if out_of_range R C (⟨row, (col : Int), true⟩ : cell) = false
        then 1 else 0) = 0 := by
      rw [if_neg hoob]
    rw [hite]
    refine ⟨inv1, ?_, rfl, rfl⟩
    intro e he
    simp only [List.mem_append, List.mem_singleton] at he
    rcases he with h | h
    · exact Or.inl h
    · rw [h]
      exact Or.inr ⟨rfl, rfl⟩

/-- Effect of a `symmetry::none` row (columns `c₀, ..., c₀ + m - 1`):
the invariant is preserved, new entries lie in the processed column range of
this row, `pre_cnt` gains `m` and `post_cnt` gains one per in-range post
cell. -/
theorem none_row_fold (R C : Nat) (row : Int) (hr0 : 0 ≤ row) (hr1 : row ≤ (R : Int) + 1) :
    ∀ (m c₀ : Nat) (s : vm_state), vm_inv R C s → c₀ + m ≤ C + 2 →
      (∀ e ∈ s.map, e.1.row ≠ row ∨ e.1.col < (c₀ : Int)) →
      vm_inv R C ((List.range' c₀ m).foldl (none_body R C row) s)
      ∧ (∀ e ∈ ((List.range' c₀ m).foldl (none_body R C row) s).map,
          e ∈ s.map ∨ (e.1.row = row ∧ (c₀ : Int) ≤ e.1.col ∧ e.1.col < (c₀ : Int) + m))
      ∧ ((List.range' c₀ m).foldl (none_body R C row) s).pre_cnt = s.pre_cnt + m
      ∧ ((List.range' c₀ m).foldl (none_body R C row) s).post_cnt
          = s.post_cnt
            + (List.range' c₀ m).countP
                (fun (col : Nat) => ! out_of_range R C ⟨row, (col : Int), true⟩) := by
  intro m
  induction m with
  | zero =>
    intro c₀ s inv _ _
    exact ⟨inv, fun e he => Or.inl he, rfl, by simp⟩
  | succ m ih =>
    intro c₀ s inv hm pos
    have hcol : (c₀ : Int) ≤ (C : Int) + 1 := by
      omega
    have fresh : ∀ e ∈ s.map, e.1.row ≠ row ∨ e.1.col ≠ (c₀ : Int) := by
      intro e he
      rcases pos e he with h | h
      · exact Or.inl h
      · exact Or.inr (by omega)
    obtain ⟨inv1, mem1, pre1, post1⟩ := none_body_inv R C row c₀ s inv hr0 hr1 hcol fresh
    have pos1 : ∀ e ∈ (none_body R C row s c₀).map, e.1.row ≠ row ∨ e.1.col < ((c₀ + 1 : Nat) : Int) := by
      intro e he
      rcases mem1 e he with h | h
      · rcases pos e h with h' | h'
        · exact Or.inl h'
        · refine Or.inr ?_
          omega
      · refine Or.inr ?_
        omega
    obtain ⟨invf, memf, pref, postf⟩ :=
      ih (c₀ + 1) (none_body R C row s c₀) inv1 (by omega) pos1
    rw [List.range'_succ, List.foldl_cons]
    refine ⟨invf, ?_, ?_, ?_⟩
    · intro e he
      rcases memf e he with h | h
      · rcases mem1 e h with h' | h'
        · exact Or.inl h'
        · refine Or.inr ⟨h'.1, ?_, ?_⟩ <;> omega
      · obtain ⟨hh1, hh2, hh3⟩ := h
        refine Or.inr ⟨hh1, ?_, ?_⟩ <;> omega
    · rw [pref, pre1]
      omega
    · rw [postf, post1, List.countP_cons]
      by_cases hoob : out_of_range R C ⟨row, (c₀ : Int), true⟩ = false
      · rw [if_pos hoob, if_pos (by rw [hoob]; rfl)]
        omega
      · rw [Bool.not_eq_false] at hoob
        rw [if_neg (by rw [hoob]; simp), if_neg (by rw [hoob]; simp)]
        omega

/-- Effect of the `symmetry::none` double loop over rows `r₀, ..., r₀+m-1`. -/
theorem none_grid_fold (R C : Nat) :
    ∀ (m r₀ : Nat) (s : vm_state), vm_inv R C s → r₀ + m ≤ R + 2 →
      (∀ e ∈ s.map, e.1.row < (r₀ : Int)) →
      vm_inv R C ((List.range' r₀ m).foldl
        (fun s (row : Nat) => (List.range (C + 2)).foldl (none_body R C (row : Int)) s) s)
      ∧ (∀ e ∈ ((List.range' r₀ m).foldl
            (fun s (row : Nat) => (List.range (C + 2)).foldl (none_body R C (row : Int)) s) s).map,
          e.1.row < (r₀ : Int) + m)
      ∧ ((List.range' r₀ m).foldl
          (fun s (row : Nat) => (List.range (C + 2)).foldl (none_body R C (row : Int)) s) s).pre_cnt
        = s.pre_cnt + m * (C + 2)
      ∧ ((List.range' r₀ m).foldl
          (fun s (row : Nat) => (List.range (C + 2)).foldl (none_body R C (row : Int)) s) s).post_cnt
        = s.post_cnt
          + ((List.range' r₀ m).map (fun (row : Nat) =>
              (List.range (C + 2)).countP
                (fun (col : Nat) => ! out_of_range R C ⟨(row : Int), (col : Int), true⟩))).sum := by
  intro m
  induction m with
  | zero =>
    intro r₀ s inv _ pos
    refine ⟨inv, fun e he => by simpa using pos e he, by simp, by simp⟩
  | succ m ih =>
    intro r₀ s inv hm pos
    have pos0 : ∀ e ∈ s.map, e.1.row ≠ (r₀ : Int) ∨ e.1.col < ((0 : Nat) : Int) := by
      intro e he
      have := pos e he
      exact Or.inl (by omega)
    have hrow := none_row_fold R C (r₀ : Int) (by positivity) (by omega) (C + 2) 0 s inv
      (by omega) pos0
    rw [← List.range_eq_range'] at hrow
    obtain ⟨inv1, mem1, pre1, post1⟩ := hrow
    have pos1 : ∀ e ∈ ((List.range (C + 2)).foldl (none_body R C (r₀ : Int)) s).map,
        e.1.row < ((r₀ + 1 : Nat) : Int) := by
      intro e he
      rcases mem1 e he with h | h
      · have := pos e h
        omega
      · have := h.1
        omega
    obtain ⟨invf, memf, pref, postf⟩ :=
      ih (r₀ + 1) ((List.range (C + 2)).foldl (none_body R C (r₀ : Int)) s) inv1 (by omega) pos1
    simp only [List.range'_succ, List.foldl_cons, List.map_cons, List.sum_cons]
    refine ⟨invf, ?_, ?_, ?_⟩
    · intro e he
      have := memf e he
      omega
    · rw [pref, pre1]
      ring
    · rw [postf, post1]
      omega

/-- Converts a Boolean equality goal into an iff of truth. -/
theorem bool_eq_of_iff {a b : Bool} (h : (a = true) ↔ (b = true)) : a = b := by
  cases a <;> cases b <;> simp_all

/-- Counting a contiguous band inside `List.range`. -/
theorem countP_range_band (n a b : Nat) :
    (List.range n).countP (fun k => decide (a ≤ k ∧ k ≤ b)) = min n (b + 1) - min n a := by
  induction n with
  | zero => simp
  | succ n ih =>
    rw [List.range_succ, List.countP_append, ih]
    by_cases h : a ≤ n ∧ n ≤ b
    · have h1 : List.countP (fun k => decide (a ≤ k ∧ k ≤ b)) [n] = 1 := by
        simp [List.countP_cons, h]
      rw [h1]
      omega
    · have h1 : List.countP (fun k => decide (a ≤ k ∧ k ≤ b)) [n] = 0 := by
        simp [List.countP_cons, h]
      rw [h1]
      omega

/-- The per-row in-range post-cell count of the `symmetry::none` loop. -/
theorem none_post_row_count (R C : Nat) (row : Nat) :
    (List.range (C + 2)).countP
        (fun (col : Nat) => ! out_of_range R C ⟨(row : Int), (col : Int), true⟩)
      = if 1 ≤ row ∧ row ≤ R then C else 0 := by
  by_cases hrow : 1 ≤ row ∧ row ≤ R
  · rw [if_pos hrow]
    have hcongr : ∀ col ∈ List.range (C + 2),
        ((! out_of_range R C ⟨(row : Int), (col : Int), true⟩) = true
          ↔ (fun k => decide (1 ≤ k ∧ k ≤ C)) col = true) := by
      intro col _
      rw [Bool.not_eq_true', oob_post_iff, decide_eq_true_eq]
      omega
    rw [List.countP_congr hcongr, countP_range_band]
    omega
  · rw [if_neg hrow]
    rw [List.countP_eq_zero]
    intro col _
    cases h : out_of_range R C ⟨(row : Int), (col : Int), true⟩ with
    | false =>
      rw [oob_post_iff] at h
      exact absurd h (by omega)
    | true => simp

/-- The sum of a banded constant over `List.range`. -/
theorem sum_ite_range (n k b1 b2 : Nat) :
    ((List.range n).map (fun r => if b1 ≤ r ∧ r ≤ b2 then k else 0)).sum
      = k * (min n (b2 + 1) - min n b1) := by
  induction n with
  | zero => simp
  | succ n ih =>
    rw [List.range_succ, List.map_append, List.sum_append, ih]
    by_cases h : b1 ≤ n ∧ n ≤ b2
    · simp only [List.map_cons, List.map_nil, List.sum_cons, List.sum_nil, if_pos h]
      have hmin : min (n + 1) (b2 + 1) - min (n + 1) b1 = (min n (b2 + 1) - min n b1) + 1 := by
        omega
      rw [hmin]
      ring
    · simp only [List.map_cons, List.map_nil, List.sum_cons, List.sum_nil, if_neg h]
      have hmin : min (n + 1) (b2 + 1) - min (n + 1) b1 = min n (b2 + 1) - min n b1 := by
        omega
      rw [hmin]
      omega

/-- The `symmetry::none` construction satisfies the invariant and its
counters are exactly the full pre grid and the interior grid. -/
theorem mk_none_facts (R C : Nat) :
    vm_inv R C (mk_map_state R C symmetry.none)
    ∧ (mk_map_state R C symmetry.none).pre_cnt = (R + 2) * (C + 2)
    ∧ (mk_map_state R C symmetry.none).post_cnt = R * C := by
  have h := none_grid_fold R C (R + 2) 0 ⟨0, [], 0, 0⟩ (vm_inv_init R C) (by omega) (by simp)
  obtain ⟨inv, _, hpre, hpost⟩ := h
  have hm : mk_map_state R C symmetry.none
      = (List.range' 0 (R + 2)).foldl
          (fun s (row : Nat) => (List.range (C + 2)).foldl (none_body R C (row : Int)) s)
          ⟨0, [], 0, 0⟩ := by
    rw [mk_map_state, List.range_eq_range', List.range_eq_range']
  refine ⟨by rw [hm]; exact inv, ?_, ?_⟩
  · rw [hm, hpre]
    show 0 + (R + 2) * (C + 2) = (R + 2) * (C + 2)
    omega
  · rw [hm, hpost]
    have hcongr : ∀ row ∈ List.range' 0 (R + 2),
        (List.range (C + 2)).countP
            (fun (col : Nat) => ! out_of_range R C ⟨(row : Int), (col : Int), true⟩)
          = (fun r => if 1 ≤ r ∧ r ≤ R then C else 0) row := by
      intro row _
      exact none_post_row_count R C row
    rw [List.map_congr_left hcongr, ← List.range_eq_range', sum_ite_range]
    have hmin : min (R + 2) (R + 1) - min (R + 2) 1 = R := by
      omega
    rw [hmin]
    show 0 + C * R = R * C
    rw [Nat.zero_add, Nat.mul_comm]

/-- `MAX_COL` of the pre phase is `C + 1`. -/
theorem MAX_COL_pre (C : Nat) : MAX_COL C false = (C : Int) + 1 := by
  simp [MAX_COL, cols]
  ring

/-- Bounds of `max_col` in the mirror branch: it is the middle column
(`⌈(C+2)/2⌉ - 1` of the pre grid). -/
theorem mirror_max_col_bounds (C : Nat) :
    2 * mirror_max_col C ≤ C + 1 ∧ C ≤ 2 * mirror_max_col C + 1 := by
  unfold mirror_max_col
  rw [Nat.add_mod_right]
  by_cases h : C % 2 = 1 <;> simp [h] <;> omega

/-- The exact value of `max_col`: the middle pre-column `(C+1)/2`. -/
theorem mirror_max_col_eq (C : Nat) : mirror_max_col C = (C + 1) / 2 := by
  unfold mirror_max_col
  rw [Nat.add_mod_right]
  by_cases h : C % 2 = 1 <;> simp [h] <;> omega

/-- `symmetry::mirror` iteration, fully mirrored in-range case. -/
theorem mirror_body_tt_tt (R C : Nat) (row : Int) (lc : Nat) (s : vm_state)
    (ham : (mirror_max_col C : Int) < MAX_COL C false - (lc : Int))
    (hoob : out_of_range R C ⟨row, (lc : Int), true⟩ = false) :
    mirror_body R C row s lc =
      ⟨s.x + 1 + 1 + 1,
        ((s.map ++ [(⟨row, (lc : Int), false⟩, s.x)])
          ++ [(⟨row, MAX_COL C false - (lc : Int), false⟩, s.x + 1)])
          ++ [(⟨row, (lc : Int), true⟩, s.x + 1 + 1)]
          ++ [(⟨row, MAX_COL C false - (lc : Int), true⟩, s.x + 1 + 1)],
        s.pre_cnt + 1 + 1, s.post_cnt + 1⟩ := by
  simp only [mirror_body]
  rw [decide_eq_true ham, hoob]
  simp

/-- `symmetry::mirror` iteration, mirrored out-of-range case. -/
theorem mirror_body_tt_ff (R C : Nat) (row : Int) (lc : Nat) (s : vm_state)
    (ham : (mirror_max_col C : Int) < MAX_COL C false - (lc : Int))
    (hoob : out_of_range R C ⟨row, (lc : Int), true⟩ = true) :
    mirror_body R C row s lc =
      ⟨s.x + 1 + 1,
        (s.map ++ [(⟨row, (lc : Int), false⟩, s.x)])
          ++ [(⟨row, MAX_COL C false - (lc : Int), false⟩, s.x + 1)],
        s.pre_cnt + 1 + 1, s.post_cnt⟩ := by
  simp only [mirror_body]
  rw [decide_eq_true ham, hoob]
  simp

/-- `symmetry::mirror` iteration, unmirrored in-range case. -/
theorem mirror_body_ff_tt (R C : Nat) (row : Int) (lc : Nat) (s : vm_state)
    (ham : ¬ ((mirror_max_col C : Int) < MAX_COL C false - (lc : Int)))
    (hoob : out_of_range R C ⟨row, (lc : Int), true⟩ = false) :
    mirror_body R C row s lc =
      ⟨s.x + 1 + 1,
        (s.map ++ [(⟨row, (lc : Int), false⟩, s.x)])
          ++ [(⟨row, (lc : Int), true⟩, s.x + 1)],
        s.pre_cnt + 1, s.post_cnt + 1⟩ := by
  simp only [mirror_body]
  rw [decide_eq_false ham, hoob]
  simp

/-- `symmetry::mirror` iteration, unmirrored out-of-range case. -/
theorem mirror_body_ff_ff (R C : Nat) (row : Int) (lc : Nat) (s : vm_state)
    (ham : ¬ ((mirror_max_col C : Int) < MAX_COL C false - (lc : Int)))
    (hoob : out_of_range R C ⟨row, (lc : Int), true⟩ = true) :
    mirror_body R C row s lc =
      ⟨s.x + 1, s.map ++ [(⟨row, (lc : Int), false⟩, s.x)],
        s.pre_cnt + 1, s.post_cnt⟩ := by
  simp only [mirror_body]
  rw [decide_eq_false ham, hoob]
  simp

/-- Effect of one `symmetry::mirror` iteration: the invariant is preserved,
the new entries sit in the two processed columns of this row, `pre_cnt`
gains one or two, and `post_cnt` gains one exactly when the post cell is in
range. -/
theorem mirror_body_inv (R C : Nat) (row : Int) (lc : Nat) (s : vm_state)
    (inv : vm_inv R C s) (hr0 : 0 ≤ row) (hr1 : row ≤ (R : Int) + 1)
    (hlc : lc ≤ mirror_max_col C)
    (fresh : ∀ e ∈ s.map, e.1.row ≠ row ∨ e.1.col < (lc : Int)
      ∨ (C : Int) + 1 - (lc : Int) < e.1.col) :
    vm_inv R C (mirror_body R C row s lc)
    ∧ (∀ e ∈ (mirror_body R C row s lc).map, e ∈ s.map ∨
        (e.1.row = row ∧ (e.1.col = (lc : Int) ∨ e.1.col = (C : Int) + 1 - (lc : Int))))
    ∧ (mirror_body R C row s lc).pre_cnt
        = s.pre_cnt + 1
          + (if (mirror_max_col C : Int) < MAX_COL C false - (lc : Int) then 1 else 0)
    ∧ (mirror_body R C row s lc).post_cnt
        = s.post_cnt + (if out_of_range R C ⟨row, (lc : Int), true⟩ = false then 1 else 0) := by
  obtain ⟨hb1, hb2⟩ := mirror_max_col_bounds C
  have hmc : MAX_COL C false = (C : Int) + 1 := MAX_COL_pre C
  have hpreL : out_of_range R C ⟨row, (lc : Int), false⟩ = false := by
    rw [oob_pre_iff]
    refine ⟨hr0, hr1, by positivity, by omega⟩
  have freshL : ∀ e ∈ s.map, e.1 ≠ (⟨row, (lc : Int), false⟩ : cell) := by
    intro e he heq
    rcases fresh e he with h | h | h <;> rw [heq] at h
    · exact h rfl
    · simp at h <;> omega
    · simp at h <;> omega
  by_cases ham : (mirror_max_col C : Int) < MAX_COL C false - (lc : Int)
  · have hamn : (lc : Int) < (C : Int) + 1 - (lc : Int) := by
      rw [hmc] at ham
      omega
    have hpreR : out_of_range R C ⟨row, (C : Int) + 1 - (lc : Int), false⟩ = false := by
      rw [oob_pre_iff]
      refine ⟨hr0, hr1, by omega, by omega⟩
    have freshR : ∀ e ∈ s.map ++ [((⟨row, (lc : Int), false⟩ : cell), s.x)],
        e.1 ≠ (⟨row, (C : Int) + 1 - (lc : Int), false⟩ : cell) := by
      intro e he heq
      rcases List.mem_append.1 he with h | h
      · rcases fresh e h with h' | h' | h' <;> rw [heq] at h'
        · exact h' rfl
        · simp at h' <;> omega
        · simp at h' <;> omega
      · rw [List.mem_singleton.1 h] at heq
        simp at heq <;> omega
    have inv1 : vm_inv R C ⟨s.x + 1, s.map ++ [(⟨row, (lc : Int), false⟩, s.x)],
        s.pre_cnt + 1, s.post_cnt⟩ :=
      vm_inv_push R C s _ _ _ inv hpreL freshL (by have := inv.x_eq; omega)
    have inv2 : vm_inv R C ⟨s.x + 1 + 1,
        (s.map ++ [(⟨row, (lc : Int), false⟩, s.x)])
          ++ [(⟨row, (C : Int) + 1 - (lc : Int), false⟩, s.x + 1)],
        s.pre_cnt + 1 + 1, s.post_cnt⟩ :=
      vm_inv_push R C _ _ _ _ inv1 hpreR freshR
        (by have := inv.x_eq
            show s.x + 1 + 1 = s.pre_cnt + 1 + 1 + s.post_cnt
            omega)
    by_cases hoob : out_of_range R C ⟨row, (lc : Int), true⟩ = false
    · obtain ⟨ho1, ho2, ho3, ho4⟩ := (oob_post_iff R C row (lc : Int)).1 hoob
      have hpostR : out_of_range R C ⟨row, (C : Int) + 1 - (lc : Int), true⟩ = false := by
        rw [oob_post_iff]
        refine ⟨ho1, ho2, by omega, by omega⟩
      have freshPL : ∀ e ∈ (s.map ++ [((⟨row, (lc : Int), false⟩ : cell), s.x)])
          ++ [((⟨row, (C : Int) + 1 - (lc : Int), false⟩ : cell), s.x + 1)],
          e.1 ≠ (⟨row, (lc : Int), true⟩ : cell) := by
        intro e he heq
        rcases List.mem_append.1 he with h | h
        · rcases List.mem_append.1 h with h' | h'
          · rcases fresh e h' with h'' | h'' | h'' <;> rw [heq] at h''
            · exact h'' rfl
            · simp at h'' <;> omega
            · simp at h'' <;> omega
          · rw [List.mem_singleton.1 h'] at heq
            simp at heq
        · rw [List.mem_singleton.1 h] at heq
          simp at heq <;> omega
      have inv3 : vm_inv R C ⟨s.x + 1 + 1 + 1,
          ((s.map ++ [(⟨row, (lc : Int), false⟩, s.x)])
            ++ [(⟨row, (C : Int) + 1 - (lc : Int), false⟩, s.x + 1)])
            ++ [(⟨row, (lc : Int), true⟩, s.x + 1 + 1)],
          s.pre_cnt + 1 + 1, s.post_cnt + 1⟩ :=
        vm_inv_push R C _ _ _ _ inv2 hoob freshPL
          (by have := inv.x_eq
              show s.x + 1 + 1 + 1 = s.pre_cnt + 1 + 1 + (s.post_cnt + 1)
              omega)
      have freshPR : ∀ e ∈ ((s.map ++ [((⟨row, (lc : Int), false⟩ : cell), s.x)])
          ++ [((⟨row, (C : Int) + 1 - (lc : Int), false⟩ : cell), s.x + 1)])
          ++ [((⟨row, (lc : Int), true⟩ : cell), s.x + 1 + 1)],
          e.1 ≠ (⟨row, (C : Int) + 1 - (lc : Int), true⟩ : cell) := by
        intro e he heq
        rcases List.mem_append.1 he with h | h
        · rcases List.mem_append.1 h with h' | h'
          · rcases List.mem_append.1 h' with h'' | h''
            · rcases fresh e h'' with h3 | h3 | h3 <;> rw [heq] at h3
              · exact h3 rfl
              · simp at h3 <;> omega
              · simp at h3 <;> omega
            · rw [List.mem_singleton.1 h''] at heq
              simp at heq
          · rw [List.mem_singleton.1 h'] at heq
            simp at heq
        · rw [List.mem_singleton.1 h] at heq
          simp at heq <;> omega
      have inv4 := vm_inv_push_shared R C _ (⟨row, (C : Int) + 1 - (lc : Int), true⟩ : cell)
        (s.x + 1 + 1) inv3 hpostR freshPR
        (by show s.x + 1 + 1 < s.x + 1 + 1 + 1
            omega) rfl
      rw [mirror_body_tt_tt R C row lc s ham hoob, hmc]
      refine ⟨inv4, ?_,
        by rw [if_pos (show ((mirror_max_col C : Int) < (C : Int) + 1 - (lc : Int)) by omega)],
        by rw [if_pos hoob]⟩
      intro e he
      simp only [List.mem_append, List.mem_singleton] at he
      rcases he with (((h | h) | h) | h) | h
      · exact Or.inl h
      all_goals rw [h]; exact Or.inr ⟨rfl, by simp⟩
    · rw [Bool.not_eq_false] at hoob
      rw [mirror_body_tt_ff R C row lc s ham hoob, hmc]
      refine ⟨inv2, ?_,
        by rw [if_pos (show ((mirror_max_col C : Int) < (C : Int) + 1 - (lc : Int)) by omega)],
        by rw [if_neg (by rw [hoob]; simp)]; simp⟩
      intro e he
      simp only [List.mem_append, List.mem_singleton] at he
      rcases he with (h | h) | h
      · exact Or.inl h
      all_goals rw [h]; exact Or.inr ⟨rfl, by simp⟩
  · have hameq : (C : Int) + 1 - (lc : Int) ≤ (mirror_max_col C : Int) := by
      rw [hmc] at ham
      omega
    have inv1 : vm_inv R C ⟨s.x + 1, s.map ++ [(⟨row, (lc : Int), false⟩, s.x)],
        s.pre_cnt + 1, s.post_cnt⟩ :=
      vm_inv_push R C s _ _ _ inv hpreL freshL (by have := inv.x_eq; omega)
    by_cases hoob : out_of_range R C ⟨row, (lc : Int), true⟩ = false
    · have freshP : ∀ e ∈ s.map ++ [((⟨row, (lc : Int), false⟩ : cell), s.x)],
          e.1 ≠ (⟨row, (lc : Int), true⟩ : cell) := by
        intro e he heq
        rcases List.mem_append.1 he with h | h
        · rcases fresh e h with h' | h' | h' <;> rw [heq] at h'
          · exact h' rfl
          · simp at h' <;> omega
          · simp at h' <;> omega
        · rw [List.mem_singleton.1 h] at heq
          simp at heq
      have inv2 : vm_inv R C ⟨s.x + 1 + 1,
          (s.map ++ [(⟨row, (lc : Int), false⟩, s.x)]) ++ [(⟨row, (lc : Int), true⟩, s.x + 1)],
          s.pre_cnt + 1, s.post_cnt + 1⟩ :=
        vm_inv_push R C _ _ _ _ inv1 hoob freshP
          (by have := inv.x_eq
              show s.x + 1 + 1 = s.pre_cnt + 1 + (s.post_cnt + 1)
              omega)
      rw [mirror_body_ff_tt R C row lc s ham hoob]
      refine ⟨inv2, ?_, by rw [if_neg ham], by rw [if_pos hoob]⟩
      intro e he
      simp only [List.mem_append, List.mem_singleton] at he
      rcases he with (h | h) | h
      · exact Or.inl h
      all_goals rw [h]; exact Or.inr ⟨rfl, by simp⟩
    · rw [Bool.not_eq_false] at hoob
      rw [mirror_body_ff_ff R C row lc s ham hoob]
      refine ⟨inv1, ?_, by rw [if_neg ham], by rw [if_neg (by rw [hoob]; simp)]; simp⟩
      intro e he
      simp only [List.mem_append, List.mem_singleton] at he
      rcases he with h | h
      · exact Or.inl h
      · rw [h]
        exact Or.inr ⟨rfl, by simp⟩

/-- Effect of a `symmetry::mirror` row (left columns `l₀, ..., l₀+m-1`). -/
theorem mirror_row_fold (R C : Nat) (row : Int) (hr0 : 0 ≤ row) (hr1 : row ≤ (R : Int) + 1) :
    ∀ (m l₀ : Nat) (s : vm_state), vm_inv R C s → l₀ + m ≤ mirror_max_col C + 1 →
      (∀ e ∈ s.map, e.1.row ≠ row ∨ e.1.col < (l₀ : Int)
        ∨ (C : Int) + 1 - (l₀ : Int) < e.1.col) →
      vm_inv R C ((List.range' l₀ m).foldl (mirror_body R C row) s)
      ∧ (∀ e ∈ ((List.range' l₀ m).foldl (mirror_body R C row) s).map,
          e ∈ s.map ∨ (e.1.row = row ∧ (l₀ : Int) ≤ e.1.col ∧ e.1.col ≤ (C : Int) + 1 - (l₀ : Int)))
      ∧ ((List.range' l₀ m).foldl (mirror_body R C row) s).pre_cnt
          = s.pre_cnt + m + (List.range' l₀ m).countP
              (fun (lc : Nat) => decide ((mirror_max_col C : Int) < MAX_COL C false - (lc : Int)))
      ∧ ((List.range' l₀ m).foldl (mirror_body R C row) s).post_cnt
          = s.post_cnt + (List.range' l₀ m).countP
              (fun (lc : Nat) => ! out_of_range R C ⟨row, (lc : Int), true⟩) := by
  intro m
  induction m with
  | zero =>
    intro l₀ s inv _ _
    refine ⟨inv, fun e he => Or.inl he, by simp, by simp⟩
  | succ m ih =>
    intro l₀ s inv hm pos
    obtain ⟨hb1, hb2⟩ := mirror_max_col_bounds C
    have hlc : l₀ ≤ mirror_max_col C := by
      omega
    obtain ⟨inv1, mem1, pre1, post1⟩ := mirror_body_inv R C row l₀ s inv hr0 hr1 hlc pos
    have pos1 : ∀ e ∈ (mirror_body R C row s l₀).map,
        e.1.row ≠ row ∨ e.1.col < ((l₀ + 1 : Nat) : Int)
          ∨ (C : Int) + 1 - ((l₀ + 1 : Nat) : Int) < e.1.col := by
      intro e he
      rcases mem1 e he with h | h
      · rcases pos e h with h' | h' | h'
        · exact Or.inl h'
        · exact Or.inr (Or.inl (by omega))
        · exact Or.inr (Or.inr (by omega))
      · rcases h.2 with h' | h'
        · exact Or.inr (Or.inl (by omega))
        · refine Or.inr (Or.inr ?_)
          have : 2 * l₀ ≤ C + 1 := by
            omega
          omega
    obtain ⟨invf, memf, pref, postf⟩ := ih (l₀ + 1) (mirror_body R C row s l₀) inv1
      (by omega) pos1
    rw [List.range'_succ, List.foldl_cons]
    refine ⟨invf, ?_, ?_, ?_⟩
    · intro e he
      rcases memf e he with h | h
      · rcases mem1 e h with h' | h'
        · exact Or.inl h'
        · refine Or.inr ⟨h'.1, ?_, ?_⟩
          · rcases h'.2 with h'' | h'' <;> omega
          · rcases h'.2 with h'' | h''
            · have : 2 * l₀ ≤ C + 1 := by
                omega
              omega
            · omega
      · exact Or.inr ⟨h.1, by omega, by omega⟩
    · rw [pref, pre1, List.countP_cons]
      by_cases ham : (mirror_max_col C : Int) < MAX_COL C false - (l₀ : Int)
      · rw [if_pos ham, if_pos (by rw [decide_eq_true_eq]; exact ham)]
        omega
      · rw [if_neg ham, if_neg (by rw [decide_eq_true_eq]; exact ham)]
        omega
    · rw [postf, post1, List.countP_cons]
      by_cases hoob : out_of_range R C ⟨row, (l₀ : Int), true⟩ = false
      · rw [if_pos hoob, if_pos (by rw [hoob]; rfl)]
        omega
      · rw [Bool.not_eq_false] at hoob
        rw [if_neg (by rw [hoob]; simp), if_neg (by rw [hoob]; simp)]
        omega

/-- Effect of the `symmetry::mirror` double loop over rows `r₀, ..., r₀+m-1`. -/
theorem mirror_grid_fold (R C : Nat) :
    ∀ (m r₀ : Nat) (s : vm_state), vm_inv R C s → r₀ + m ≤ R + 2 →
      (∀ e ∈ s.map, e.1.row < (r₀ : Int)) →
      vm_inv R C ((List.range' r₀ m).foldl
        (fun s (row : Nat) =>
          (List.range (mirror_max_col C + 1)).foldl (mirror_body R C (row : Int)) s) s)
      ∧ (∀ e ∈ ((List.range' r₀ m).foldl
            (fun s (row : Nat) =>
              (List.range (mirror_max_col C + 1)).foldl (mirror_body R C (row : Int)) s) s).map,
          e.1.row < (r₀ : Int) + m)
      ∧ ((List.range' r₀ m).foldl
          (fun s (row : Nat) =>
            (List.range (mirror_max_col C + 1)).foldl (mirror_body R C (row : Int)) s) s).pre_cnt
        = s.pre_cnt + m * ((mirror_max_col C + 1) + (List.range (mirror_max_col C + 1)).countP
            (fun (lc : Nat) => decide ((mirror_max_col C : Int) < MAX_COL C false - (lc : Int))))
      ∧ ((List.range' r₀ m).foldl
          (fun s (row : Nat) =>
            (List.range (mirror_max_col C + 1)).foldl (mirror_body R C (row : Int)) s) s).post_cnt
        = s.post_cnt
          + ((List.range' r₀ m).map (fun (row : Nat) =>
              (List.range (mirror_max_col C + 1)).countP
                (fun (lc : Nat) => ! out_of_range R C ⟨(row : Int), (lc : Int), true⟩))).sum := by
  intro m
  induction m with
  | zero =>
    intro r₀ s inv _ pos
    refine ⟨inv, fun e he => by simpa using pos e he, by simp, by simp⟩
  | succ m ih =>
    intro r₀ s inv hm pos
    have pos0 : ∀ e ∈ s.map, e.1.row ≠ ((r₀ : Nat) : Int) ∨ e.1.col < ((0 : Nat) : Int)
        ∨ (C : Int) + 1 - ((0 : Nat) : Int) < e.1.col := by
      intro e he
      have := pos e he
      exact Or.inl (by omega)
    have hrow := mirror_row_fold R C (r₀ : Int) (by positivity) (by omega)
      (mirror_max_col C + 1) 0 s inv (by omega) pos0
    rw [← List.range_eq_range'] at hrow
    obtain ⟨inv1, mem1, pre1, post1⟩ := hrow
    have pos1 : ∀ e ∈ ((List.range (mirror_max_col C + 1)).foldl
        (mirror_body R C (r₀ : Int)) s).map, e.1.row < ((r₀ + 1 : Nat) : Int) := by
      intro e he
      rcases mem1 e he with h | h
      · have := pos e h
        omega
      · have := h.1
        omega
    obtain ⟨invf, memf, pref, postf⟩ :=
      ih (r₀ + 1) ((List.range (mirror_max_col C + 1)).foldl (mirror_body R C (r₀ : Int)) s)
        inv1 (by omega) pos1
    simp only [List.range'_succ, List.foldl_cons, List.map_cons, List.sum_cons]
    refine ⟨invf, ?_, ?_, ?_⟩
    · intro e he
      have := memf e he
      omega
    · rw [pref, pre1]
      ring
    · rw [postf, post1]
      omega

/-- Each `symmetry::mirror` row contributes exactly the full pre-row width
`C + 2` of pre-phase indices. -/
theorem mirror_pre_row_count (C : Nat) :
    (mirror_max_col C + 1) + (List.range (mirror_max_col C + 1)).countP
        (fun (lc : Nat) => decide ((mirror_max_col C : Int) < MAX_COL C false - (lc : Int)))
      = C + 2 := by
  have hb := mirror_max_col_eq C
  have hmc := MAX_COL_pre C
  have hcongr : ∀ lc ∈ List.range (mirror_max_col C + 1),
      ((decide ((mirror_max_col C : Int) < MAX_COL C false - (lc : Int))) = true
        ↔ (fun k => decide (0 ≤ k ∧ k ≤ C - mirror_max_col C)) lc = true) := by
    intro lc hlc
    rw [List.mem_range] at hlc
    simp only [decide_eq_true_eq]
    omega
  rw [List.countP_congr hcongr, countP_range_band]
  omega

/-- The per-row in-range post-cell count of the `symmetry::mirror` loop. -/
theorem mirror_post_row_count (R C : Nat) (row : Nat) :
    (List.range (mirror_max_col C + 1)).countP
        (fun (lc : Nat) => ! out_of_range R C ⟨(row : Int), (lc : Int), true⟩)
      = if 1 ≤ row ∧ row ≤ R then min (mirror_max_col C + 1) (C + 1) - 1 else 0 := by
  by_cases hrow : 1 ≤ row ∧ row ≤ R
  · rw [if_pos hrow]
    have hcongr : ∀ lc ∈ List.range (mirror_max_col C + 1),
        ((! out_of_range R C ⟨(row : Int), (lc : Int), true⟩) = true
          ↔ (fun k => decide (1 ≤ k ∧ k ≤ C)) lc = true) := by
      intro lc _
      rw [Bool.not_eq_true', oob_post_iff, decide_eq_true_eq]
      omega
    rw [List.countP_congr hcongr, countP_range_band]
    omega
  · rw [if_neg hrow]
    rw [List.countP_eq_zero]
    intro lc _
    cases h : out_of_range R C ⟨(row : Int), (lc : Int), true⟩ with
    | false =>
      rw [oob_post_iff] at h
      exact absurd h (by omega)
    | true => simp

/-- The `symmetry::mirror` construction satisfies the invariant; its
pre-counter is exactly the full pre grid, its post-counter one index per
interior row and left-half interior column. -/
theorem mk_mirror_facts (R C : Nat) :
    vm_inv R C (mk_map_state R C symmetry.mirror)
    ∧ (mk_map_state R C symmetry.mirror).pre_cnt = (R + 2) * (C + 2)
    ∧ (mk_map_state R C symmetry.mirror).post_cnt
        = R * (min (mirror_max_col C + 1) (C + 1) - 1) := by
  have h := mirror_grid_fold R C (R + 2) 0 ⟨0, [], 0, 0⟩ (vm_inv_init R C) (by omega) (by simp)
  obtain ⟨inv, _, hpre, hpost⟩ := h
  have hm : mk_map_state R C symmetry.mirror
      = (List.range' 0 (R + 2)).foldl
          (fun s (row : Nat) =>
            (List.range (mirror_max_col C + 1)).foldl (mirror_body R C (row : Int)) s)
          ⟨0, [], 0, 0⟩ := by
    rw [mk_map_state, List.range_eq_range', List.range_eq_range']
  refine ⟨by rw [hm]; exact inv, ?_, ?_⟩
  · rw [hm, hpre]
    have hrow := mirror_pre_row_count C
    show 0 + (R + 2) * ((mirror_max_col C + 1) + (List.range (mirror_max_col C + 1)).countP
        (fun (lc : Nat) => decide ((mirror_max_col C : Int) < MAX_COL C false - (lc : Int))))
      = (R + 2) * (C + 2)
    rw [hrow]
    omega
  · rw [hm, hpost]
    have hcongr : ∀ row ∈ List.range' 0 (R + 2),
        (List.range (mirror_max_col C + 1)).countP
            (fun (lc : Nat) => ! out_of_range R C ⟨(row : Int), (lc : Int), true⟩)
          = (fun r => if 1 ≤ r ∧ r ≤ R then min (mirror_max_col C + 1) (C + 1) - 1 else 0) row := by
      intro row _
      exact mirror_post_row_count R C row
    rw [List.map_congr_left hcongr, ← List.range_eq_range', sum_ite_range]
    have hmin : min (R + 2) (R + 1) - min (R + 2) 1 = R := by
      omega
    rw [hmin]
    show 0 + (min (mirror_max_col C + 1) (C + 1) - 1) * R
      = R * (min (mirror_max_col C + 1) (C + 1) - 1)
    rw [Nat.zero_add, Nat.mul_comm]

/-- The constructed state satisfies the invariant for either symmetry. -/
theorem mk_inv (R C : Nat) (sym : symmetry) : vm_inv R C (mk_map_state R C sym) := by
  cases sym
  · exact (mk_none_facts R C).1
  · exact (mk_mirror_facts R C).1

/-- Looking up the cell of any entry of the map yields that entry's index. -/
theorem map_find?_entry (R C : Nat) (s : vm_state) (inv : vm_inv R C s)
    (e : cell × Nat) (he : e ∈ s.map) : map_find? s.map e.1 = Option.some e.2 := by
  unfold map_find?
  cases hf : s.map.find? (fun f => cell_beq f.1 e.1) with
  | none =>
    rw [List.find?_eq_none] at hf
    exact absurd (by rw [cell_beq_iff]) (hf e he)
  | some f =>
    have hp := List.find?_some hf
    have hmem := List.mem_of_find?_eq_some hf
    rw [cell_beq_iff] at hp
    have := inv.funct f hmem e he hp
    simp [this]

end GameOfLife

namespace GameOfLife

/-- C5: for every grid dimension and either symmetry mode, the pre-phase
variable count is exactly `rows(pre) * cols(pre)`, and no two distinct
pre-phase cells share an index. -/
theorem var_map_pre_exact (R C : Nat) (sym : symmetry) :
    (((mk_var_map R C sym).varcount_p false : Int) = rows R false * cols C false)
    ∧ (∀ e ∈ (mk_var_map R C sym).st.map, ∀ f ∈ (mk_var_map R C sym).st.map,
        e.2 = f.2 → e.1.prime = false → f.1.prime = false → e.1 = f.1) := by
  have hrc : rows R false * cols C false = (((R + 2) * (C + 2) : Nat) : Int) := by
    simp only [rows, cols]
    push_cast
    ring
  constructor
  · rw [hrc]
    show (((mk_map_state R C sym).pre_cnt : Int)) = _
    cases sym
    · rw [(mk_none_facts R C).2.1]
    · rw [(mk_mirror_facts R C).2.1]
  · exact (mk_inv R C sym).pre_inj

/-- Closed instance of `var_map_pre_exact` on the 1x1 mirror map: nine
pre-phase indices, and its two pre-phase entries for index 0 coincide. -/
theorem var_map_pre_exact_witness :
    (((mk_var_map 1 1 symmetry.mirror).varcount_p false : Int) = rows 1 false * cols 1 false)
    ∧ (((⟨0, 0, false⟩, 0) : cell × Nat) ∈ (mk_var_map 1 1 symmetry.mirror).st.map)
    ∧ ((⟨0, 0, false⟩, 0) : cell × Nat).1 = ((⟨0, 0, false⟩, 0) : cell × Nat).1 :=
  ⟨(var_map_pre_exact 1 1 symmetry.mirror).1, by decide,
    (var_map_pre_exact 1 1 symmetry.mirror).2 (⟨0, 0, false⟩, 0) (by decide)
      (⟨0, 0, false⟩, 0) (by decide) rfl rfl rfl⟩

/-- C7: on the same grid, mirror symmetry never uses more post-phase
variables than no symmetry (a mirrored pair shares one post index). -/
theorem var_map_mirror_post_le (R C : Nat) :
    (mk_var_map R C symmetry.mirror).varcount_p true
      ≤ (mk_var_map R C symmetry.none).varcount_p true := by
  show (mk_map_state R C symmetry.mirror).post_cnt ≤ (mk_map_state R C symmetry.none).post_cnt
  rw [(mk_mirror_facts R C).2.2, (mk_none_facts R C).2.2]
  have h : min (mirror_max_col C + 1) (C + 1) - 1 ≤ C := by
    omega
  exact Nat.mul_le_mul_left R h

/-- C8: `var_from_cell` signals OutOfRange exactly when the queried cell
violates its phase's bounds or has no entry in the map, and otherwise
returns the mapped index. -/
theorem var_from_cell_spec (R C : Nat) (sym : symmetry) (c : cell) :
    ((mk_var_map R C sym).var_from_cell c = Except.error () ↔
      (out_of_range R C c = true ∨ map_find? (mk_var_map R C sym).st.map c = Option.none))
    ∧ (∀ i, (mk_var_map R C sym).var_from_cell c = Except.ok i ↔
        (out_of_range R C c = false
          ∧ map_find? (mk_var_map R C sym).st.map c = Option.some i)) := by
  unfold var_map.var_from_cell
  rw [show (mk_var_map R C sym).R = R from rfl, show (mk_var_map R C sym).C = C from rfl]
  by_cases hoob : out_of_range R C c = true
  · rw [if_pos hoob]
    constructor
    · simp [hoob]
    · intro i
      simp [hoob]
  · rw [if_neg hoob]
    rw [Bool.not_eq_true] at hoob
    cases hf : map_find? (mk_var_map R C sym).st.map c with
    | none =>
      constructor
      · simp [hoob]
      · intro i
        simp [hoob]
    | some j =>
      refine ⟨by simp [hoob], ?_⟩
      intro i
      constructor
      · intro h
        cases h
        exact ⟨hoob, rfl⟩
      · intro h
        obtain ⟨h1, h2⟩ := h
        cases h2
        rfl

/-- Closed instance of `var_from_cell_spec`: on the 1x1 grid, the pre cell
(0,0) is found at index 0, and the out-of-range post cell (0,0) signals. -/
theorem var_from_cell_spec_witness :
    ((mk_var_map 1 1 symmetry.none).var_from_cell ⟨0, 0, false⟩ = Except.ok 0 ↔
      (out_of_range 1 1 ⟨0, 0, false⟩ = false
        ∧ map_find? (mk_var_map 1 1 symmetry.none).st.map ⟨0, 0, false⟩ = Option.some 0))
    ∧ ((mk_var_map 1 1 symmetry.none).var_from_cell ⟨0, 0, true⟩ = Except.error () ↔
      (out_of_range 1 1 ⟨0, 0, true⟩ = true
        ∨ map_find? (mk_var_map 1 1 symmetry.none).st.map ⟨0, 0, true⟩ = Option.none)) :=
  ⟨(var_from_cell_spec 1 1 symmetry.none ⟨0, 0, false⟩).2 0,
    (var_from_cell_spec 1 1 symmetry.none ⟨0, 0, true⟩).1⟩

/-- C9: for either symmetry and every declared variable index, the canonical
cell stored in the inverse map looks up to that same index. -/
theorem cell_var_roundtrip (R C : Nat) (sym : symmetry) (x : Nat)
    (hx : x < (mk_var_map R C sym).varcount) :
    (mk_var_map R C sym).var_from_cell ((mk_var_map R C sym).cell_from_var x)
      = Except.ok x := by
  have inv := mk_inv R C sym
  have hxx : x < (mk_map_state R C sym).x := by
    have h1 := inv.x_eq
    have h2 : (mk_var_map R C sym).varcount
        = (mk_map_state R C sym).pre_cnt + (mk_map_state R C sym).post_cnt := rfl
    omega
  obtain ⟨e, he, hei⟩ := inv.surj x hxx
  have hfe : e ∈ (mk_map_state R C sym).map.filter (fun f => f.2 == x) := by
    rw [List.mem_filter]
    exact ⟨he, by simp [hei]⟩
  cases hlast : ((mk_map_state R C sym).map.filter (fun f => f.2 == x)).getLast? with
  | none =>
    rw [List.getLast?_eq_none_iff] at hlast
    rw [hlast] at hfe
    exact absurd hfe (List.not_mem_nil e)
  | some f =>
    obtain ⟨hne, hfeq⟩ := List.mem_getLast?_eq_getLast
      (show f ∈ ((mk_map_state R C sym).map.filter (fun g => g.2 == x)).getLast? from hlast)
    have hfmem : f ∈ (mk_map_state R C sym).map.filter (fun g => g.2 == x) :=
      hfeq ▸ List.getLast_mem hne
    rw [List.mem_filter] at hfmem
    obtain ⟨hfmap, hfx⟩ := hfmem
    have hfx' : f.2 = x := by
      simpa using hfx
    have hcell : (mk_var_map R C sym).cell_from_var x = f.1 := by
      unfold var_map.cell_from_var
      rw [show (mk_var_map R C sym).st = mk_map_state R C sym from rfl, hlast]
    rw [hcell]
    unfold var_map.var_from_cell
    rw [if_neg (by rw [show (mk_var_map R C sym).R = R from rfl,
      show (mk_var_map R C sym).C = C from rfl, inv.in_rng f hfmap]; simp)]
    rw [show (mk_var_map R C sym).st = mk_map_state R C sym from rfl,
      map_find?_entry R C _ inv f hfmap, hfx']

/-- Closed instance of `cell_var_roundtrip`: index 5 of the 1x1 mirror map
(shared by the centre post cell and its mirror image) round-trips. -/
theorem cell_var_roundtrip_witness :
    5 < (mk_var_map 1 1 symmetry.mirror).varcount ∧
    (mk_var_map 1 1 symmetry.mirror).var_from_cell
        ((mk_var_map 1 1 symmetry.mirror).cell_from_var 5) = Except.ok 5 :=
  ⟨by decide, cell_var_roundtrip 1 1 symmetry.mirror 5 (by decide)⟩

end GameOfLife

namespace GameOfLife

/-!
## Decision diagrams as Boolean functions

A diagram handle is modelled by the Boolean function it computes on total
assignments `Nat → Bool`.  `adapter.build_node(x, low, high)` constructs the
node testing variable `x` (BuDDy: `ite(ithvar(x), high, low)`), and
`adapter.build()` returns the node built last — the builder seeds
`_latest_build` with the true terminal when `build_node(true)` ran first.
`adapter.exists(f, pred)` quantifies the cube of all declared variables
(`0 ≤ i < varcount`) selected by `pred`.
-/

/-- A relation (diagram handle): the Boolean function it computes. -/
def Rel : Type :=
  (Nat → Bool) → Bool

/-- `adapter.top()` / the true terminal. -/
def relTrue : Rel := fun _ => true

/-- `adapter.bot()` / the false terminal. -/
def relFalse : Rel := fun _ => false

/-- `adapter.ithvar(x)`. -/
def relVar (x : Nat) : Rel := fun A => A x

/-- Negation (`~`, `adapter.nithvar` composed of `relVar`). -/
def relNot (f : Rel) : Rel := fun A => ! f A

/-- Conjunction (`&`). -/
def relAnd (f g : Rel) : Rel := fun A => f A && g A

/-- Disjunction (`|`). -/
def relOr (f g : Rel) : Rel := fun A => f A || g A

/-- `adapter.apply_imp`. -/
def relImp (f g : Rel) : Rel := fun A => ! f A || g A

/-- `adapter.build_node(x, low, high)`. -/
def build_node (x : Nat) (low high : Rel) : Rel :=
  fun A => if A x then high A else low A

/-- Point update of an assignment. -/
def setVar (A : Nat → Bool) (x : Nat) (b : Bool) : Nat → Bool :=
  fun y => if y = x then b else A y

/-- Existential quantification of a single variable. -/
def relExists1 (x : Nat) (f : Rel) : Rel :=
  fun A => f (setVar A x true) || f (setVar A x false)

/-- Existential quantification of a list of variables
(`bdd_exist` over the cube of the listed variables). -/
def relExistsList (xs : List Nat) (f : Rel) : Rel :=
  xs.foldr relExists1 f

/-- The descending variable range `[b-1, b-2, ..., a]`, the shape of the
source's `for (int x = b-1; a <= x; --x)` loops. -/
def revRange (a b : Nat) : List Nat :=
  (List.range' a (b - a)).reverse

/-!
## `construct_count` (the ThresholdBuilder)

Faithful embedding of `construct_count` (game-of-life.cpp:448-506).  The
`init_parts` vector has `alive + 2` slots; it is modelled as a function from
slot index to relation (every access of the source stays below `alive + 2`).
`adapter.build()` returns `_latest_build`: the last `build_node(x, ·, ·)`
node, or — when no such node was built — the true terminal recorded when
`build_node(true)` initialised `init_parts.at(alive)`.
-/

/-- Loop state of `construct_count`: the chain slots, `remaining_cells`,
the window `[alive_min, alive_max]`, and `_latest_build`. -/
structure cc_state where
  parts : Nat → Rel
  remaining : Nat
  alive_min : Nat
  alive_max : Nat
  latest : Rel

/-- One iteration (variable `x`, descending) of `construct_count`'s loop. -/
def cc_step (vm : var_map) (c : cell) (s : cc_state) (x : Nat) : cc_state :=
  let curr_cell := vm.cell_from_var x
  if curr_cell.prime = false ∧ in_neighbourhood c curr_cell then
    let remaining := s.remaining - 1
    let alive_min := s.alive_min - 1
    let alive_max :=
      if 0 < remaining ∧ remaining = s.alive_max then s.alive_max - 1 else s.alive_max
    let parts : Nat → Rel := fun i =>
      if alive_min ≤ i ∧ i ≤ alive_max then build_node x (s.parts i) (s.parts (i + 1))
      else s.parts i
    ⟨parts, remaining, alive_min, alive_max,
      if alive_min ≤ alive_max then parts alive_max else s.latest⟩
  else
    let parts : Nat → Rel := fun i =>
      if s.alive_min ≤ i ∧ i ≤ s.alive_max then build_node x (s.parts i) (s.parts i)
      else s.parts i
    ⟨parts, s.remaining, s.alive_min, s.alive_max,
      if s.alive_min ≤ s.alive_max then parts s.alive_max else s.latest⟩

/-- `construct_count(adapter, vm, c, alive)` — the source's `alive` is
asserted nonnegative, so it is a `Nat` here.  `c.neighbourhood().size()`
is the constant 9. -/
def construct_count (vm : var_map) (c : cell) (alive : Nat) : Rel :=
  let init_parts : Nat → Rel := fun i => if i = alive then relTrue else relFalse
  let remaining_cells : Nat := (neighbourhood c).length
  if alive > remaining_cells then relFalse
  else
    ((revRange 0 vm.varcount).foldl (cc_step vm c)
      ⟨init_parts, remaining_cells, alive, alive, relTrue⟩).latest

/-!
## `construct_eq` (the EqualityBuilder)

Faithful embedding of `construct_eq` (game-of-life.cpp:509-555) under its
asserted precondition `x_pre < x_post` (and `x_post < varcount`, which the
map guarantees).  The four `for` loops become folds over descending ranges;
the returned diagram is the final `root0`, which is also the node built
last.  The source obtains the two indices through `vm[...]`, which throws
for cells absent from the map; the unreachable throwing path is modelled as
the false terminal.
-/

/-- Loop body of `construct_eq`'s single-chain loops:
`root0 = adapter.build_node(x, root0, root0)`. -/
def dc_step (r : Rel) (x : Nat) : Rel :=
  build_node x r r

/-- Loop body of `construct_eq`'s lockstep loop between `x_pre` and
`x_post`: both `root1` and `root0` get a don't-care node. -/
def dc_pair_step (p : Rel × Rel) (x : Nat) : Rel × Rel :=
  (build_node x p.1 p.1, build_node x p.2 p.2)

/-- The chain construction of `construct_eq`, given `varcount`, `x_pre` and
`x_post`. -/
def construct_eq_core (n x_pre x_post : Nat) : Rel :=
  let root0 : Rel := relTrue
  let root0 := (revRange (x_post + 1) n).foldl dc_step root0
  let root1 := build_node x_post relFalse root0
  let root0 := build_node x_post root0 relFalse
  let pair := (revRange (x_pre + 1) x_post).foldl dc_pair_step (root0, root1)
  let root0 := build_node x_pre pair.1 pair.2
  (revRange 0 x_pre).foldl dc_step root0

/-- `construct_eq(adapter, vm, c)`. -/
def construct_eq (vm : var_map) (c : cell) : Rel :=
  match vm.var_from_cell ⟨c.row, c.col, false⟩, vm.var_from_cell ⟨c.row, c.col, true⟩ with
  | Except.ok x_pre, Except.ok x_post => construct_eq_core vm.varcount x_pre x_post
  | _, _ => relFalse

/-- A don't-care chain never changes the computed function. -/
theorem dc_chain_eval (l : List Nat) (r : Rel) (A : Nat → Bool) :
    (l.foldl dc_step r) A = r A := by
  induction l generalizing r with
  | nil => rfl
  | cons a l ih =>
    rw [List.foldl_cons, ih]
    simp only [dc_step, build_node]
    cases A a <;> rfl

/-- A lockstep don't-care chain never changes either component. -/
theorem dc_pair_chain_eval (l : List Nat) (p : Rel × Rel) (A : Nat → Bool) :
    ((l.foldl dc_pair_step p).1 A = p.1 A) ∧ ((l.foldl dc_pair_step p).2 A = p.2 A) := by
  induction l generalizing p with
  | nil => exact ⟨rfl, rfl⟩
  | cons a l ih =>
    rw [List.foldl_cons]
    have h := ih (dc_pair_step p a)
    constructor
    · rw [h.1]
      simp only [dc_pair_step, build_node]
      cases A a <;> rfl
    · rw [h.2]
      simp only [dc_pair_step, build_node]
      cases A a <;> rfl

/-- The chain of `construct_eq` computes equality of the two variables. -/
theorem construct_eq_core_eval (n x_pre x_post : Nat) (A : Nat → Bool) :
    construct_eq_core n x_pre x_post A = (A x_pre == A x_post) := by
  unfold construct_eq_core
  rw [dc_chain_eval]
  simp only [build_node]
  rw [(dc_pair_chain_eval _ _ A).1, (dc_pair_chain_eval _ _ A).2]
  simp only [build_node, dc_chain_eval, relTrue, relFalse]
  cases A x_pre <;> cases A x_post <;> rfl

/-- The number of live target variables: variables whose canonical cell is a
pre-phase member of `c`'s 3x3 neighbourhood (the selection condition of
`construct_count`'s loop) that the assignment sets true. -/
def live_targets (vm : var_map) (c : cell) (A : Nat → Bool) : Nat :=
  ((List.range vm.varcount).filter
    (fun x => (vm.cell_from_var x).prime = false ∧ in_neighbourhood c (vm.cell_from_var x))).countP
    (fun x => A x)

end GameOfLife

namespace GameOfLife

/-- C2: for a post-phase cell whose pre- and post-variables are `x_pre <
x_post`, `construct_eq` is satisfied by exactly the assignments giving the
two variables equal values, independently of every other variable. -/
theorem construct_eq_exact (R C : Nat) (s : symmetry) (c : cell) (x_pre x_post : Nat)
    (hp : (mk_var_map R C s).var_from_cell ⟨c.row, c.col, false⟩ = Except.ok x_pre)
    (hq : (mk_var_map R C s).var_from_cell ⟨c.row, c.col, true⟩ = Except.ok x_post)
    (_hlt : x_pre < x_post) (A : Nat → Bool) :
    construct_eq (mk_var_map R C s) c A = (A x_pre == A x_post) := by
  unfold construct_eq
  rw [hp, hq]
  exact construct_eq_core_eval _ _ _ A

/-- Closed instance of `construct_eq_exact` on the 1x1 grid: the centre
cell's variables are 4 and 5, and the assignment making only variable 4 true
falsifies the relation, matching `(true == false)`. -/
theorem construct_eq_exact_witness :
    ((mk_var_map 1 1 symmetry.none).var_from_cell ⟨1, 1, false⟩ = Except.ok 4) ∧
    ((mk_var_map 1 1 symmetry.none).var_from_cell ⟨1, 1, true⟩ = Except.ok 5) ∧
    4 < 5 ∧
    construct_eq (mk_var_map 1 1 symmetry.none) ⟨1, 1, true⟩ (fun x => decide (x = 4)) =
      (decide ((4 : Nat) = 4) == decide ((5 : Nat) = 4)) :=
  ⟨by rfl, by rfl, by decide,
    construct_eq_exact 1 1 symmetry.none ⟨1, 1, true⟩ 4 5 (by rfl) (by rfl)
      (by decide) (fun x => decide (x = 4))⟩

/-- C6: when the requested count exceeds the nine neighbourhood cells,
`construct_count` returns the false terminal (no failure is signalled). -/
theorem construct_count_gt_nine_bot (R C : Nat) (s : symmetry) (c : cell) (k : Nat)
    (_hc : out_of_range R C c = false) (_hp : c.prime = true) (hk : 9 < k) :
    construct_count (mk_var_map R C s) c k = relFalse := by
  unfold construct_count
  rw [if_pos]
  exact hk

/-- Closed instance of `construct_count_gt_nine_bot`: requesting ten live
cells around the centre of the 1x1 grid yields the false terminal. -/
theorem construct_count_gt_nine_bot_witness :
    (out_of_range 1 1 ⟨1, 1, true⟩ = false) ∧ ((⟨1, 1, true⟩ : cell).prime = true) ∧ 9 < 10 ∧
    construct_count (mk_var_map 1 1 symmetry.none) ⟨1, 1, true⟩ 10 = relFalse :=
  ⟨by decide, by decide, by decide,
    construct_count_gt_nine_bot 1 1 symmetry.none ⟨1, 1, true⟩ 10 (by decide) rfl
      (by decide)⟩

/-- C1 fails on the code: on the 1x1 interior grid (pre-phase 3x3), the
relation built by `construct_count(vm, centre, 3)` accepts an assignment
with four live neighbourhood cells and rejects one with exactly three.
The window update `alive_max = 0 < remaining_cells && remaining_cells ==
alive_max ? alive_max - 1 : alive_max` retires a chain slot one target
variable too early, so the node built for the topmost target reads a slot
that was last rebuilt two target variables earlier and therefore ignores
the second-lowest target variable; the diagram disagrees with the
documented "exactly `alive` of the nine cells" semantics. -/
theorem construct_count_not_exact_count :
    live_targets (mk_var_map 1 1 symmetry.none) ⟨1, 1, true⟩
        (fun x => decide (x = 0 ∨ x = 1 ∨ x = 8 ∨ x = 9)) = 4 ∧
    construct_count (mk_var_map 1 1 symmetry.none) ⟨1, 1, true⟩ 3
        (fun x => decide (x = 0 ∨ x = 1 ∨ x = 8 ∨ x = 9)) = true ∧
    live_targets (mk_var_map 1 1 symmetry.none) ⟨1, 1, true⟩
        (fun x => decide (x = 0 ∨ x = 1 ∨ x = 9)) = 3 ∧
    construct_count (mk_var_map 1 1 symmetry.none) ⟨1, 1, true⟩ 3
        (fun x => decide (x = 0 ∨ x = 1 ∨ x = 9)) = false := by
  refine ⟨by decide, ?_, by decide, ?_⟩ <;> decide

end GameOfLife

namespace GameOfLife

/-!
## The transition relation and the garden-of-eden accumulation

`construct_rel` (game-of-life.cpp:558-588) conjoins the three implications
of the transition rule; `acc_rel` has a per-row overload (lines 596-627,
modelled as `acc_rel_row`) and a sweep overload (lines 629-703, modelled as
`acc_rel_sweep`); `garden_of_eden` (lines 705-768) conjoins both sweeps and
the odd middle row, then quantifies every remaining pre-phase variable.
The `vm[...]` lookups throw for cells outside the map; as in
`construct_eq`, the unreachable throwing path is modelled as the false
terminal.
-/

/-- `adapter.ithvar(vm[cell(c, prime::post)])`. -/
def ithvar_post (vm : var_map) (c : cell) : Rel :=
  match vm.var_from_cell ⟨c.row, c.col, true⟩ with
  | Except.ok x => relVar x
  | Except.error _ => relFalse

/-- `adapter.nithvar(vm[cell(c, prime::post)])`. -/
def nithvar_post (vm : var_map) (c : cell) : Rel :=
  match vm.var_from_cell ⟨c.row, c.col, true⟩ with
  | Except.ok x => relNot (relVar x)
  | Except.error _ => relFalse

/-- `construct_rel(adapter, vm, c)`: the conjunction of
(exactly 3 alive ⇒ alive), (exactly 4 alive ⇒ unchanged) and
(otherwise ⇒ dead). -/
def construct_rel (vm : var_map) (c : cell) : Rel :=
  let alive_3 := construct_count vm c 3
  let alive_4 := construct_count vm c 4
  let out := relImp alive_3 (ithvar_post vm c)
  let out := relAnd out (relImp alive_4 (construct_eq vm c))
  let alive_other := relNot (relOr alive_3 alive_4)
  relAnd out (relImp alive_other (nithvar_post vm c))

/-- The single-row `acc_rel` overload: conjoin the cell relations of row
`row` for columns `MAX_COL(post)` down to `MIN_COL(post)`; the cells are
constructed with the default — pre — phase, exactly as in the source. -/
def acc_rel_row (vm : var_map) (row : Int) : Rel :=
  (revRange 1 (vm.C + 1)).foldl
    (fun res (col : Nat) => relAnd res (construct_rel vm ⟨row, (col : Int), false⟩))
    relTrue

/-- The rows processed by one sweep of the sweep `acc_rel` overload:
`begin` to `end` as computed from `bottom` and `half_rows`. -/
def sweep_rows (R : Nat) (bottom : Bool) : List Nat :=
  if bottom then (List.range' (R - R / 2 + 1) (R / 2)).reverse
  else List.range' 1 (R / 2)

/-- The sweep `acc_rel` overload: accumulate the row relations of one edge
sweep, quantifying the pre-phase variables of `quant_row = row ± 1` under
the source's condition `bottom ? begin <= quant_row : quant_row < begin`. -/
def acc_rel_sweep (vm : var_map) (bottom : Bool) : Rel :=
  (sweep_rows vm.R bottom).foldl
    (fun res (row : Nat) =>
      let res := relAnd res (acc_rel_row vm (row : Int))
      let quant_row : Int := (row : Int) + (if bottom then 1 else -1)
      if (if bottom then ((vm.R : Int) ≤ quant_row) else (quant_row < 1)) then
        relExistsList ((List.range vm.varcount).filter
          (fun x => (vm.cell_from_var x).prime = false
            ∧ (vm.cell_from_var x).row = quant_row)) res
      else res)
    relTrue

/-- `garden_of_eden(adapter, vm)`: both sweeps, the middle row when the
interior height is odd, and the final quantification of every remaining
pre-phase variable. -/
def garden_of_eden (R C : Nat) (sym : symmetry) : Rel :=
  let vm := mk_var_map R C sym
  let res := acc_rel_sweep vm false
  let res := relAnd res (acc_rel_sweep vm true)
  let res := if R % 2 = 1 then relAnd res (acc_rel_row vm ((R / 2 + 1 : Nat) : Int)) else res
  relExistsList ((List.range vm.varcount).filter
    (fun x => (vm.cell_from_var x).prime = false)) res

/-- The quantification schedule of one sweep: for each processed row, the
pre-phase rows quantified right after it, read off the same condition as
`acc_rel_sweep`. -/
def acc_rel_schedule (R : Nat) (bottom : Bool) : List (Nat × List Int) :=
  (sweep_rows R bottom).map (fun (row : Nat) =>
    let quant_row : Int := (row : Int) + (if bottom then 1 else -1)
    (row, if (if bottom then ((R : Int) ≤ quant_row) else (quant_row < 1))
      then [quant_row] else []))

/-- The interior (post-phase) rows whose cell relations mention pre-phase
row `r`: the rows of `[1, R]` at vertical distance at most one. -/
def referencing_post_rows (R : Nat) (r : Int) : List Nat :=
  (List.range' 1 R).filter (fun (pr : Nat) => r - 1 ≤ (pr : Int) ∧ (pr : Int) ≤ r + 1)

/-- C3's schedule, as claimed: after every processed prefix of a sweep,
each pre-phase row referenced only by already-accumulated rows has been
quantified. -/
def quantifies_every_dead_row (R : Nat) (bottom : Bool) : Prop :=
  ∀ i, i < (acc_rel_schedule R bottom).length →
    ∀ r, r < R + 2 →
      ((∀ pr ∈ referencing_post_rows R (r : Int), pr ∈ (sweep_rows R bottom).take (i + 1)) →
        ((r : Nat) : Int) ∈ ((acc_rel_schedule R bottom).take (i + 1)).flatMap (fun p => p.2))

end GameOfLife

namespace GameOfLife

/-- C3 fails on the code: on a 6-row interior grid, the top sweep
accumulates rows 1, 2, 3 but only ever quantifies the border pre-row 0;
pre-row 1 is referenced only by post-rows 1 and 2, both already
accumulated after the second step, yet it is not quantified during the
sweep. -/
theorem acc_rel_schedule_claim_false : ¬ quantifies_every_dead_row 6 false := by
  unfold quantifies_every_dead_row
  decide

/-- C3, amended: each sweep quantifies only at its starting edge — the top
sweep quantifies pre-row 0 right after its first row, the bottom sweep
quantifies the border pre-row `R+1` after its first row and pre-row `R`
after its second; no other row is quantified inside the sweeps (the
remaining pre-rows fall to `garden_of_eden`'s final quantification). -/
theorem acc_rel_schedule_edges_only (R : Nat) (bottom : Bool) :
    acc_rel_schedule R bottom = (sweep_rows R bottom).map (fun (row : Nat) =>
      (row, if bottom
        then (if row = R then [((R : Int) + 1)] else if row + 1 = R then [(R : Int)] else [])
        else (if row = 1 then [(0 : Int)] else []))) := by
  unfold acc_rel_schedule
  apply List.map_congr_left
  intro row hrow
  cases bottom with
  | false =>
    have hb : 1 ≤ row ∧ row < 1 + R / 2 := by
      simpa [sweep_rows, List.mem_range'_1] using hrow
    by_cases h1 : row = 1
    · subst h1
      norm_num
    · have hc : ¬ ((row : Int) + -1 < 1) := by
        push_cast
        omega
      simp [h1, hc]
  | true =>
    have hb : R - R / 2 + 1 ≤ row ∧ row < R + 1 := by
      rw [sweep_rows] at hrow
      simp only [if_pos, List.mem_reverse, List.mem_range'_1] at hrow
      omega
    by_cases h1 : row = R
    · subst h1
      norm_num
    · by_cases h2 : row + 1 = R
      · have hc : (R : Int) ≤ (row : Int) + 1 := by
          omega
        have he : (row : Int) + 1 = (R : Int) := by
          omega
        simp [h1, h2, hc, he]
      · have hc : ¬ ((R : Int) ≤ (row : Int) + 1) := by
          omega
        simp [h1, h2, hc]

end GameOfLife

namespace GameOfLife

/-!
## Support of the constructed relations

`DependsOnlyOn P f` states that the value of the relation `f` is fixed by
the variables satisfying `P`; every construction above only ever builds
nodes for declared variables, so every relation of the pipeline depends
only on variables below `varcount`, and the final quantification removes
the pre-phase ones.
-/

/-- The relation's value is determined by the variables in `P`. -/
def DependsOnlyOn (P : Nat → Prop) (f : Rel) : Prop :=
  ∀ A B : Nat → Bool, (∀ x, P x → A x = B x) → f A = f B

theorem dep_mono {P Q : Nat → Prop} {f : Rel} (h : DependsOnlyOn P f)
    (hPQ : ∀ y, P y → Q y) : DependsOnlyOn Q f :=
  fun A B hAB => h A B (fun y hy => hAB y (hPQ y hy))

theorem dep_relTrue (P : Nat → Prop) : DependsOnlyOn P relTrue :=
  fun _ _ _ => rfl

theorem dep_relFalse (P : Nat → Prop) : DependsOnlyOn P relFalse :=
  fun _ _ _ => rfl

theorem dep_relVar {P : Nat → Prop} {x : Nat} (hx : P x) : DependsOnlyOn P (relVar x) :=
  fun A B h => h x hx

theorem dep_build_node {P : Nat → Prop} {x : Nat} {lo hi : Rel} (hx : P x)
    (hlo : DependsOnlyOn P lo) (hhi : DependsOnlyOn P hi) :
    DependsOnlyOn P (build_node x lo hi) := by
  intro A B h
  unfold build_node
  rw [h x hx, hlo A B h, hhi A B h]

theorem dep_relNot {P : Nat → Prop} {f : Rel} (hf : DependsOnlyOn P f) :
    DependsOnlyOn P (relNot f) := by
  intro A B h
  unfold relNot
  rw [hf A B h]

theorem dep_relAnd {P : Nat → Prop} {f g : Rel} (hf : DependsOnlyOn P f)
    (hg : DependsOnlyOn P g) : DependsOnlyOn P (relAnd f g) := by
  intro A B h
  unfold relAnd
  rw [hf A B h, hg A B h]

theorem dep_relOr {P : Nat → Prop} {f g : Rel} (hf : DependsOnlyOn P f)
    (hg : DependsOnlyOn P g) : DependsOnlyOn P (relOr f g) := by
  intro A B h
  unfold relOr
  rw [hf A B h, hg A B h]

theorem dep_relImp {P : Nat → Prop} {f g : Rel} (hf : DependsOnlyOn P f)
    (hg : DependsOnlyOn P g) : DependsOnlyOn P (relImp f g) := by
  intro A B h
  unfold relImp
  rw [hf A B h, hg A B h]

theorem setVar_agree {P : Nat → Prop} {A B : Nat → Bool} (h : ∀ x, P x → A x = B x)
    (x : Nat) (b : Bool) : ∀ y, P y → setVar A x b y = setVar B x b y := by
  intro y hy
  unfold setVar
  by_cases hxy : y = x
  · simp [hxy]
  · simp [hxy, h y hy]

theorem dep_relExists1 {P : Nat → Prop} {x : Nat} {f : Rel} (hf : DependsOnlyOn P f) :
    DependsOnlyOn P (relExists1 x f) := by
  intro A B h
  unfold relExists1
  rw [hf _ _ (setVar_agree h x true), hf _ _ (setVar_agree h x false)]

theorem dep_relExistsList {P : Nat → Prop} {f : Rel} (xs : List Nat)
    (hf : DependsOnlyOn P f) : DependsOnlyOn P (relExistsList xs f) := by
  induction xs with
  | nil => exact hf
  | cons x xs ih => exact dep_relExists1 ih

/-- Quantifying the variables `xs` removes them from the support. -/
theorem dep_relExistsList_remove {P : Nat → Prop} {f : Rel} (xs : List Nat)
    (hf : DependsOnlyOn P f) :
    DependsOnlyOn (fun y => P y ∧ y ∉ xs) (relExistsList xs f) := by
  induction xs generalizing f with
  | nil => exact dep_mono hf (fun y hy => ⟨hy, by simp⟩)
  | cons x xs ih =>
    intro A B h
    show relExists1 x (relExistsList xs f) A = relExists1 x (relExistsList xs f) B
    unfold relExists1
    have hagree : ∀ (b : Bool) (y : Nat), (P y ∧ y ∉ xs) →
        setVar A x b y = setVar B x b y := by
      intro b y hy
      unfold setVar
      by_cases hxy : y = x
      · simp [hxy]
      · have : A y = B y := h y ⟨hy.1, by simp [hxy, hy.2]⟩
        simp [hxy, this]
    rw [ih hf _ _ (hagree true), ih hf _ _ (hagree false)]

/-- Membership bounds in a descending range. -/
theorem revRange_lt {a b x : Nat} (hx : x ∈ revRange a b) : a ≤ x ∧ x < b := by
  unfold revRange at hx
  rw [List.mem_reverse, List.mem_range'_1] at hx
  omega

/-- Support is preserved by a conditional between supported relations. -/
theorem dep_ite {P : Nat → Prop} {c : Prop} [Decidable c] {f g : Rel}
    (hf : DependsOnlyOn P f) (hg : DependsOnlyOn P g) :
    DependsOnlyOn P (if c then f else g) := by
  split
  · exact hf
  · exact hg

/-- One `construct_count` step keeps every chain slot and the latest node
supported by the declared variables. -/
theorem cc_step_dep (vm : var_map) (c : cell) (n : Nat) (s : cc_state) (x : Nat)
    (hx : x < n)
    (hp : ∀ i, DependsOnlyOn (fun y => y < n) (s.parts i))
    (hla : DependsOnlyOn (fun y => y < n) s.latest) :
    (∀ i, DependsOnlyOn (fun y => y < n) ((cc_step vm c s x).parts i))
    ∧ DependsOnlyOn (fun y => y < n) ((cc_step vm c s x).latest) := by
  constructor
  · intro i
    unfold cc_step
    by_cases hcnd : ((vm.cell_from_var x).prime = false
        ∧ in_neighbourhood c (vm.cell_from_var x) = true)
    · rw [if_pos hcnd]
      exact dep_ite (dep_build_node hx (hp i) (hp (i + 1))) (hp i)
    · rw [if_neg hcnd]
      exact dep_ite (dep_build_node hx (hp i) (hp i)) (hp i)
  · unfold cc_step
    by_cases hcnd : ((vm.cell_from_var x).prime = false
        ∧ in_neighbourhood c (vm.cell_from_var x) = true)
    · rw [if_pos hcnd]
      exact dep_ite (dep_ite (dep_build_node hx (hp _) (hp _)) (hp _)) hla
    · rw [if_neg hcnd]
      exact dep_ite (dep_ite (dep_build_node hx (hp _) (hp _)) (hp _)) hla

/-- The `construct_count` loop keeps the state supported. -/
theorem cc_fold_dep (vm : var_map) (c : cell) (n : Nat) (l : List Nat)
    (hl : ∀ x ∈ l, x < n) (s : cc_state)
    (hp : ∀ i, DependsOnlyOn (fun y => y < n) (s.parts i))
    (hla : DependsOnlyOn (fun y => y < n) s.latest) :
    (∀ i, DependsOnlyOn (fun y => y < n) ((l.foldl (cc_step vm c) s).parts i))
    ∧ DependsOnlyOn (fun y => y < n) ((l.foldl (cc_step vm c) s).latest) := by
  induction l generalizing s with
  | nil => exact ⟨hp, hla⟩
  | cons x l ih =>
    rw [List.foldl_cons]
    have hx : x < n := hl x (List.mem_cons_self x l)
    obtain ⟨hp', hla'⟩ := cc_step_dep vm c n s x hx hp hla
    exact ih (fun y hy => hl y (List.mem_cons_of_mem x hy)) (cc_step vm c s x) hp' hla'

/-- `construct_count` is supported by the declared variables. -/
theorem construct_count_dep (vm : var_map) (c : cell) (alive : Nat) :
    DependsOnlyOn (fun y => y < vm.varcount) (construct_count vm c alive) := by
  unfold construct_count
  refine dep_ite (dep_relFalse _) ?_
  exact (cc_fold_dep vm c vm.varcount _ (fun x hx => (revRange_lt hx).2) _
    (fun i => dep_ite (dep_relTrue _) (dep_relFalse _)) (dep_relTrue _)).2

/-- An `ok` result of `var_from_cell` on a constructed map is always a
declared index. -/
theorem var_from_cell_ok_lt (R C : Nat) (sym : symmetry) (c : cell) (x : Nat)
    (h : (mk_var_map R C sym).var_from_cell c = Except.ok x) :
    x < (mk_var_map R C sym).varcount := by
  have inv := mk_inv R C sym
  unfold var_map.var_from_cell at h
  split at h
  · exact Except.noConfusion h
  · cases hf : map_find? (mk_var_map R C sym).st.map c with
    | none =>
      rw [hf] at h
      exact Except.noConfusion h
    | some i =>
      rw [hf] at h
      have h' : (Except.ok i : Except Unit Nat) = Except.ok x := h
      have hix : i = x := by injection h'
      unfold map_find? at hf
      cases hfind : (mk_var_map R C sym).st.map.find? (fun e => cell_beq e.1 c) with
      | none =>
        rw [hfind] at hf
        simp at hf
      | some e =>
        rw [hfind] at hf
        simp at hf
        have hmem := List.mem_of_find?_eq_some hfind
        have hlt := inv.idx_lt e hmem
        have hxeq := inv.x_eq
        show x < (mk_map_state R C sym).pre_cnt + (mk_map_state R C sym).post_cnt
        omega

/-- A don't-care chain preserves the support. -/
theorem dc_fold_dep {n : Nat} (l : List Nat) (hl : ∀ x ∈ l, x < n) (r : Rel)
    (hr : DependsOnlyOn (fun y => y < n) r) :
    DependsOnlyOn (fun y => y < n) (l.foldl dc_step r) := by
  induction l generalizing r with
  | nil => exact hr
  | cons x l ih =>
    rw [List.foldl_cons]
    exact ih (fun y hy => hl y (List.mem_cons_of_mem x hy)) _
      (dep_build_node (hl x (List.mem_cons_self x l)) hr hr)

/-- A lockstep don't-care chain preserves the support of both roots. -/
theorem dc_pair_fold_dep {n : Nat} (l : List Nat) (hl : ∀ x ∈ l, x < n)
    (p : Rel × Rel) (h1 : DependsOnlyOn (fun y => y < n) p.1)
    (h2 : DependsOnlyOn (fun y => y < n) p.2) :
    DependsOnlyOn (fun y => y < n) ((l.foldl dc_pair_step p).1)
    ∧ DependsOnlyOn (fun y => y < n) ((l.foldl dc_pair_step p).2) := by
  induction l generalizing p with
  | nil => exact ⟨h1, h2⟩
  | cons x l ih =>
    rw [List.foldl_cons]
    exact ih (fun y hy => hl y (List.mem_cons_of_mem x hy)) _
      (dep_build_node (hl x (List.mem_cons_self x l)) h1 h1)
      (dep_build_node (hl x (List.mem_cons_self x l)) h2 h2)

/-- The chain built by `construct_eq` is supported by the declared
variables. -/
theorem construct_eq_core_dep (n x_pre x_post : Nat) (hpre : x_pre < n)
    (hpost : x_post < n) :
    DependsOnlyOn (fun y => y < n) (construct_eq_core n x_pre x_post) := by
  have h0 : DependsOnlyOn (fun y => y < n)
      ((revRange (x_post + 1) n).foldl dc_step relTrue) :=
    dc_fold_dep _ (fun x hx => (revRange_lt hx).2) _ (dep_relTrue _)
  have hpair := dc_pair_fold_dep (revRange (x_pre + 1) x_post)
    (fun x hx => Nat.lt_trans (revRange_lt hx).2 hpost)
    (build_node x_post ((revRange (x_post + 1) n).foldl dc_step relTrue) relFalse,
      build_node x_post relFalse ((revRange (x_post + 1) n).foldl dc_step relTrue))
    (dep_build_node hpost h0 (dep_relFalse _))
    (dep_build_node hpost (dep_relFalse _) h0)
  unfold construct_eq_core
  exact dc_fold_dep _ (fun x hx => Nat.lt_trans (revRange_lt hx).2 hpre) _
    (dep_build_node hpre hpair.1 hpair.2)

/-- `construct_eq` on a constructed map is supported by the declared
variables. -/
theorem construct_eq_dep (R C : Nat) (sym : symmetry) (c : cell) :
    DependsOnlyOn (fun y => y < (mk_var_map R C sym).varcount)
      (construct_eq (mk_var_map R C sym) c) := by
  unfold construct_eq
  split
  · rename_i x_pre x_post hp hq
    exact construct_eq_core_dep _ _ _
      (var_from_cell_ok_lt R C sym _ _ hp) (var_from_cell_ok_lt R C sym _ _ hq)
  · exact dep_relFalse _

/-- The post-phase literal of a cell is supported by the declared
variables. -/
theorem ithvar_post_dep (R C : Nat) (sym : symmetry) (c : cell) :
    DependsOnlyOn (fun y => y < (mk_var_map R C sym).varcount)
      (ithvar_post (mk_var_map R C sym) c) := by
  unfold ithvar_post
  split
  · rename_i x hx
    exact dep_relVar (var_from_cell_ok_lt R C sym _ _ hx)
  · exact dep_relFalse _

/-- The negated post-phase literal of a cell is supported by the declared
variables. -/
theorem nithvar_post_dep (R C : Nat) (sym : symmetry) (c : cell) :
    DependsOnlyOn (fun y => y < (mk_var_map R C sym).varcount)
      (nithvar_post (mk_var_map R C sym) c) := by
  unfold nithvar_post
  split
  · rename_i x hx
    exact dep_relNot (dep_relVar (var_from_cell_ok_lt R C sym _ _ hx))
  · exact dep_relFalse _

/-- A single cell relation is supported by the declared variables. -/
theorem construct_rel_dep (R C : Nat) (sym : symmetry) (c : cell) :
    DependsOnlyOn (fun y => y < (mk_var_map R C sym).varcount)
      (construct_rel (mk_var_map R C sym) c) := by
  unfold construct_rel
  exact dep_relAnd
    (dep_relAnd (dep_relImp (construct_count_dep _ _ _) (ithvar_post_dep R C sym c))
      (dep_relImp (construct_count_dep _ _ _) (construct_eq_dep R C sym c)))
    (dep_relImp
      (dep_relNot (dep_relOr (construct_count_dep _ _ _) (construct_count_dep _ _ _)))
      (nithvar_post_dep R C sym c))

/-- A fold whose body preserves the support yields a supported relation. -/
theorem rel_fold_dep {P : Nat → Prop} (l : List Nat) (g : Rel → Nat → Rel)
    (hg : ∀ r, DependsOnlyOn P r → ∀ x ∈ l, DependsOnlyOn P (g r x)) (r : Rel)
    (hr : DependsOnlyOn P r) : DependsOnlyOn P (l.foldl g r) := by
  induction l generalizing r with
  | nil => exact hr
  | cons x l ih =>
    rw [List.foldl_cons]
    exact ih (fun s hs y hy => hg s hs y (List.mem_cons_of_mem x hy)) _
      (hg r hr x (List.mem_cons_self x l))

/-- A row accumulation is supported by the declared variables. -/
theorem acc_rel_row_dep (R C : Nat) (sym : symmetry) (row : Int) :
    DependsOnlyOn (fun y => y < (mk_var_map R C sym).varcount)
      (acc_rel_row (mk_var_map R C sym) row) := by
  unfold acc_rel_row
  exact rel_fold_dep _ _
    (fun r hr col _ => dep_relAnd hr (construct_rel_dep R C sym _)) _ (dep_relTrue _)

/-- A sweep accumulation is supported by the declared variables. -/
theorem acc_rel_sweep_dep (R C : Nat) (sym : symmetry) (bottom : Bool) :
    DependsOnlyOn (fun y => y < (mk_var_map R C sym).varcount)
      (acc_rel_sweep (mk_var_map R C sym) bottom) := by
  unfold acc_rel_sweep
  refine rel_fold_dep _ _ (fun r hr row _ => ?_) _ (dep_relTrue _)
  exact dep_ite
    (dep_relExistsList _ (dep_relAnd hr (acc_rel_row_dep R C sym _)))
    (dep_relAnd hr (acc_rel_row_dep R C sym _))


/-- C4: the relation returned by `garden_of_eden` — both edge sweeps, the
middle row when the interior height is odd, and the final existential
quantification — is a function of the post-phase variables only: any two
assignments agreeing on every declared post-phase variable give it the
same value, whatever the pre-phase variables hold. -/
theorem garden_of_eden_post_only (R C : Nat) (sym : symmetry) (A B : Nat → Bool)
    (h : ∀ x, x < (mk_var_map R C sym).varcount →
      ((mk_var_map R C sym).cell_from_var x).prime = true → A x = B x) :
    garden_of_eden R C sym A = garden_of_eden R C sym B := by
  have h3 : DependsOnlyOn (fun y => y < (mk_var_map R C sym).varcount)
      (if R % 2 = 1 then
        relAnd (relAnd (acc_rel_sweep (mk_var_map R C sym) false)
            (acc_rel_sweep (mk_var_map R C sym) true))
          (acc_rel_row (mk_var_map R C sym) ((R / 2 + 1 : Nat) : Int))
      else relAnd (acc_rel_sweep (mk_var_map R C sym) false)
        (acc_rel_sweep (mk_var_map R C sym) true)) :=
    dep_ite
      (dep_relAnd (dep_relAnd (acc_rel_sweep_dep R C sym false)
        (acc_rel_sweep_dep R C sym true)) (acc_rel_row_dep R C sym _))
      (dep_relAnd (acc_rel_sweep_dep R C sym false) (acc_rel_sweep_dep R C sym true))
  have hrem := dep_relExistsList_remove
    ((List.range (mk_var_map R C sym).varcount).filter
      (fun x => ((mk_var_map R C sym).cell_from_var x).prime = false)) h3
  unfold garden_of_eden
  refine hrem A B ?_
  intro y hy
  refine h y hy.1 ?_
  cases hcv : ((mk_var_map R C sym).cell_from_var y).prime with
  | false =>
    exact absurd (List.mem_filter.2 ⟨List.mem_range.2 hy.1, by simp [hcv]⟩) hy.2
  | true => rfl

/-- Witness for C4 on the 1×1 grid without symmetry: the two assignments
differ exactly at variable 0, a pre-phase variable, and agree on the sole
post-phase variable (index 5), so the relation takes the same value. -/
theorem garden_of_eden_post_only_witness :
    garden_of_eden 1 1 symmetry.none (fun x => x == 0)
      = garden_of_eden 1 1 symmetry.none (fun _ => false) :=
  garden_of_eden_post_only 1 1 symmetry.none (fun x => x == 0) (fun _ => false)
    (by decide)

end GameOfLife
